import Mathlib

/-!
Verification of the terminal keypress dispatcher
(`KeypressProvider` / `handleKeypress` / `parseKittyPrefix` in the CLI's
keypress context module).

Strings are embedded as `List Char`.  The module's two handler versions
share their classifier; the version carrying the kitty-sequence timeout
(the first one in the source file) is embedded here.
-/

namespace Keypress

/-- The escape character, `ESC = 0x1B` (source constant `ESC`). -/
def ESCc : Char := '\u001B'

/-- Bracketed-paste start marker `ESC [ 2 0 0 ~` (source `PASTE_MODE_PREFIX`). -/
def PASTE_MODE_PREFIX : List Char := [ESCc, '[', '2', '0', '0', '~']

/-- Bracketed-paste end marker `ESC [ 2 0 1 ~` (source `PASTE_MODE_SUFFIX`). -/
def PASTE_MODE_SUFFIX : List Char := [ESCc, '[', '2', '0', '1', '~']

/-- Modelled from the spec: the focus-in framing byte sequence (`FOCUS_IN`
is imported from `useFocus.js`, which is not among the provided sources;
the spec lists fixed focus-in/out byte sequences among the protocol
constants; the conventional terminal encoding is `ESC [ I`). -/
def FOCUS_IN : List Char := [ESCc, '[', 'I']

/-- Modelled from the spec: the focus-out framing byte sequence `ESC [ O`
(see `FOCUS_IN`). -/
def FOCUS_OUT : List Char := [ESCc, '[', 'O']

/-- Modelled from the spec: constants imported from `platformConstants.js`
(not among the provided sources).  The spec describes them as fixed
protocol constants: the escape key code, the CSI-u key codes collapsing
onto named keys (two distinct codes both mapping to "return"), the
1-based modifier encoding with an event-type offset, and the modifier
bit positions shift/alt/ctrl. Values follow the published kitty keyboard
protocol / ASCII. -/
def CHAR_CODE_ESC : Nat := 27

/-- Modelled from the spec: CSI-u key code for Tab (see `CHAR_CODE_ESC`). -/
def KITTY_KEYCODE_TAB : Nat := 9

/-- Modelled from the spec: CSI-u key code for Backspace (see `CHAR_CODE_ESC`). -/
def KITTY_KEYCODE_BACKSPACE : Nat := 127

/-- Modelled from the spec: CSI-u key code for Enter (see `CHAR_CODE_ESC`). -/
def KITTY_KEYCODE_ENTER : Nat := 13

/-- Modelled from the spec: CSI-u key code for numpad Enter (see `CHAR_CODE_ESC`). -/
def KITTY_KEYCODE_NUMPAD_ENTER : Nat := 57414

/-- Modelled from the spec: base value of the 1-based modifier field. -/
def KITTY_MODIFIER_BASE : Nat := 1

/-- Modelled from the spec: the event-type offset; a modifier value at or
above it has the offset subtracted, collapsing repeat/release encodings
onto the press encoding. -/
def KITTY_MODIFIER_EVENT_TYPES_OFFSET : Nat := 128

/-- Modelled from the spec: shift modifier bit. -/
def MODIFIER_SHIFT_BIT : Nat := 1

/-- Modelled from the spec: alt modifier bit. -/
def MODIFIER_ALT_BIT : Nat := 2

/-- Modelled from the spec: ctrl modifier bit. -/
def MODIFIER_CTRL_BIT : Nat := 4

/-- Modelled from the spec: the tail of the kitty-protocol Ctrl+C sequence
(`KITTY_CTRL_C` from `platformConstants.js`); the full sequence compared
against is `ESC ++ KITTY_CTRL_C`, the CSI-u encoding of ctrl+c. -/
def KITTY_CTRL_C : List Char := ['[', '9', '9', ';', '5', 'u']

/-- Modelled from the spec: the fixed maximum escape-buffer length
(`MAX_KITTY_SEQUENCE_LENGTH` from `platformConstants.js`). -/
def MAX_KITTY_SEQUENCE_LENGTH : Nat := 32

/-- Single-quote character (source `SINGLE_QUOTE`). -/
def SINGLE_QUOTE : Char := Char.ofNat 39

/-- Double-quote character (source `DOUBLE_QUOTE`). -/
def DOUBLE_QUOTE : Char := Char.ofNat 34

/-- Backslash character. -/
def BACKSLASH : Char := Char.ofNat 92

/-- The key event record (source `interface Key`).  `sequence` is kept as a
character list; the optional `kittyProtocol` tag defaults to `false`. -/
structure Key where
  name : String
  ctrl : Bool
  meta : Bool
  shift : Bool
  paste : Bool
  sequence : List Char
  kittyProtocol : Bool := false
deriving Repr, DecidableEq

/-- Alt-key remap table (source `ALT_KEY_CHARACTER_MAP`): precomposed
accent characters emitted by Option/Alt+letter keyboards, mapped to the
base letter. -/
def altChar (c : Char) : Option Char :=
  if c = 'å' then some 'a'
  else if c = '∫' then some 'b'
  else if c = 'ç' then some 'c'
  else if c = '∂' then some 'd'
  else if c = '´' then some 'e'
  else if c = 'ƒ' then some 'f'
  else if c = '©' then some 'g'
  else if c = '˙' then some 'h'
  else if c = 'ˆ' then some 'i'
  else if c = '∆' then some 'j'
  else if c = '˚' then some 'k'
  else if c = '¬' then some 'l'
  else if c = 'µ' then some 'm'
  else if c = '˜' then some 'n'
  else if c = 'ø' then some 'o'
  else if c = 'π' then some 'p'
  else if c = 'œ' then some 'q'
  else if c = '®' then some 'r'
  else if c = 'ß' then some 's'
  else if c = '†' then some 't'
  else if c = '¨' then some 'u'
  else if c = '√' then some 'v'
  else if c = '∑' then some 'w'
  else if c = '≈' then some 'x'
  else if c = '¥' then some 'y'
  else if c = 'Ω' then some 'z'
  else none

/-- Lookup of a key's `sequence` in the alt-key table: in the source the
map is indexed by the whole sequence string, so only single-character
sequences can hit. -/
def altMap : List Char → Option Char
  | [c] => altChar c
  | _ => none

/-- `l` starts with `pre` (JS `String.startsWith`). -/
def listStartsWith (l pre : List Char) : Bool :=
  l.take pre.length = pre

/-- Count of leading decimal digits (the `\d+` span of the source regexes). -/
def digSpan : List Char → Nat
  | [] => 0
  | c :: cs => if c.isDigit then digSpan cs + 1 else 0

/-- Numeric value of a digit list (JS `parseInt` on the captured digits). -/
def natOfDigits (ds : List Char) : Nat :=
  ds.foldl (fun a c => a * 10 + (c.toNat - 48)) 0

/-- Decode a raw modifier value into (shift, alt, ctrl).  Mirrors the
source: subtract the event-type offset when at or above it, subtract the
base (1), then test bits 1/2/4.  In the source the subtraction happens on
a JS number, so a raw value decoding to 0 yields `-1`, whose two's
complement representation has every bit set: all three flags come out
true in that case. -/
def decodeMods (mods : Nat) : Bool × Bool × Bool :=
  let m := if KITTY_MODIFIER_EVENT_TYPES_OFFSET ≤ mods
           then mods - KITTY_MODIFIER_EVENT_TYPES_OFFSET else mods
  if m = 0 then (true, true, true)
  else
    let bits := m - KITTY_MODIFIER_BASE
    ((bits.land MODIFIER_SHIFT_BIT = MODIFIER_SHIFT_BIT : Bool),
     (bits.land MODIFIER_ALT_BIT = MODIFIER_ALT_BIT : Bool),
     (bits.land MODIFIER_CTRL_BIT = MODIFIER_CTRL_BIT : Bool))

/-- Name/modifier payload of a parsed sequence, before the `sequence`
field is filled in with the consumed prefix. -/
structure KInfo where
  name : String
  ctrl : Bool
  meta : Bool
  shift : Bool
deriving Repr, DecidableEq

/-- Rule 0, legacy reverse tab `ESC [ Z` → Shift+Tab. -/
def ruleRevTabLegacy (l : List Char) : Option (KInfo × Nat) :=
  match l with
  | a :: b :: c :: _ =>
    if a = ESCc ∧ b = '[' ∧ c = 'Z' then
      some ({ name := "tab", ctrl := false, meta := false, shift := true }, 3)
    else none
  | _ => none

/-- Rule 1, parameterized reverse tab `ESC [ 1 ; mods Z`: shift forced
true, ctrl/alt decoded from the modifier value. -/
def ruleRevTabParam (l : List Char) : Option (KInfo × Nat) :=
  match l with
  | a :: b :: c :: d :: rest =>
    if a = ESCc ∧ b = '[' ∧ c = '1' ∧ d = ';' then
      let n := digSpan rest
      if n = 0 then none
      else
        match rest.drop n with
        | 'Z' :: _ =>
          let mods := natOfDigits (rest.take n)
          let flags := decodeMods mods
          some ({ name := "tab", ctrl := flags.2.2, meta := flags.2.1,
                  shift := true }, 4 + n + 1)
        | _ => none
    else none
  | _ => none

/-- The letter class of rule 2 (source regex class `[ABCDHFPQSR]`). -/
def arrowLetters : List Char := ['A', 'B', 'C', 'D', 'H', 'F', 'P', 'Q', 'S', 'R']

/-- Symbol-to-name table for parameterized functional keys. -/
def arrowName (c : Char) : String :=
  if c = 'A' then "up"
  else if c = 'B' then "down"
  else if c = 'C' then "right"
  else if c = 'D' then "left"
  else if c = 'H' then "home"
  else if c = 'F' then "end"
  else if c = 'P' then "f1"
  else if c = 'Q' then "f2"
  else if c = 'R' then "f3"
  else "f4"

/-- Rule 2, parameterized functional `ESC [ 1 ; mods L` with
`L ∈ {A,B,C,D,H,F,P,Q,R,S}`. -/
def ruleArrow (l : List Char) : Option (KInfo × Nat) :=
  match l with
  | a :: b :: c :: d :: rest =>
    if a = ESCc ∧ b = '[' ∧ c = '1' ∧ d = ';' then
      let n := digSpan rest
      if n = 0 then none
      else
        match rest.drop n with
        | sym :: _ =>
          if sym ∈ arrowLetters then
            let mods := natOfDigits (rest.take n)
            let flags := decodeMods mods
            some ({ name := arrowName sym, ctrl := flags.2.2,
                    meta := flags.2.1, shift := flags.1 }, 4 + n + 1)
          else none
        | [] => none
    else none
  | _ => none

/-- Tilde-coded functional key names (the `switch` on codes 1–6). -/
def tildeName (code : Nat) : Option String :=
  if code = 1 then some "home"
  else if code = 2 then some "insert"
  else if code = 3 then some "delete"
  else if code = 4 then some "end"
  else if code = 5 then some "pageup"
  else if code = 6 then some "pagedown"
  else none

/-- The fixed CSI-u code table (source `kittyKeyCodeToName`). -/
def kittyCodeName (code : Nat) : Option String :=
  if code = CHAR_CODE_ESC then some "escape"
  else if code = KITTY_KEYCODE_TAB then some "tab"
  else if code = KITTY_KEYCODE_BACKSPACE then some "backspace"
  else if code = KITTY_KEYCODE_ENTER then some "return"
  else if code = KITTY_KEYCODE_NUMPAD_ENTER then some "return"
  else none

/-- Name/flag selection of the CSI-u / tilde rule once key code, modifier
value and terminator have been read: the codes 1–6 switch applies only to
the `~` terminator; execution then falls through to the fixed code table
and, failing that, to the ctrl/alt lowercase-letter rule. -/
def csiUInfo (keyCode mods : Nat) (t : Char) : Option KInfo :=
  let flags := decodeMods mods
  let sh := flags.1
  let al := flags.2.1
  let ct := flags.2.2
  match (if t = '~' then tildeName keyCode else none) with
  | some n => some { name := n, ctrl := ct, meta := al, shift := sh }
  | none =>
    match kittyCodeName keyCode with
    | some n => some { name := n, ctrl := ct, meta := al, shift := sh }
    | none =>
      if (ct ∨ al) ∧ 97 ≤ keyCode ∧ keyCode ≤ 122 then
        some { name := String.mk [Char.ofNat keyCode], ctrl := ct,
               meta := al, shift := sh }
      else none

/-- Rule 3, CSI-u / tilde form `ESC [ code (; mods)? (u|~)`: after the
key code digits, either a `;` introduces the modifier digits followed by
the terminator, or the next character must itself be the terminator (the
regex's optional group). -/
def ruleCsiU (l : List Char) : Option (KInfo × Nat) :=
  match l with
  | a :: b :: rest =>
    if a = ESCc ∧ b = '[' then
      let d1 := digSpan rest
      if d1 = 0 then none
      else
        let keyCode := natOfDigits (rest.take d1)
        match rest.drop d1 with
        | c :: rest2 =>
          if c = ';' then
            let d2 := digSpan rest2
            if d2 = 0 then none
            else
              match rest2.drop d2 with
              | t :: _ =>
                if t = 'u' ∨ t = '~' then
                  (csiUInfo keyCode (natOfDigits (rest2.take d2)) t).map
                    (fun i => (i, 2 + d1 + 1 + d2 + 1))
                else none
              | [] => none
          else if c = 'u' ∨ c = '~' then
            (csiUInfo keyCode KITTY_MODIFIER_BASE c).map
              (fun i => (i, 2 + d1 + 1))
          else none
        | [] => none
    else none
  | _ => none

/-- The letter class of rule 4 (source regex class `[ABCDHF]`). -/
def legacyLetters : List Char := ['A', 'B', 'C', 'D', 'H', 'F']

/-- Symbol-to-name table for legacy functional keys. -/
def legacyName (c : Char) : String :=
  if c = 'A' then "up"
  else if c = 'B' then "down"
  else if c = 'C' then "right"
  else if c = 'D' then "left"
  else if c = 'H' then "home"
  else "end"

/-- Rule 4, legacy functional keys `ESC [ L`, `L ∈ {A,B,C,D,H,F}`, no
modifiers. -/
def ruleLegacy (l : List Char) : Option (KInfo × Nat) :=
  match l with
  | a :: b :: c :: _ =>
    if a = ESCc ∧ b = '[' ∧ c ∈ legacyLetters then
      some ({ name := legacyName c, ctrl := false, meta := false,
              shift := false }, 3)
    else none
  | _ => none

/-- The rule chain of `parseKittyPrefix`, in source priority order. -/
def parseRules (l : List Char) : Option (KInfo × Nat) :=
  (ruleRevTabLegacy l).orElse fun _ =>
  (ruleRevTabParam l).orElse fun _ =>
  (ruleArrow l).orElse fun _ =>
  (ruleCsiU l).orElse fun _ =>
  ruleLegacy l

/-- Source `parseKittyPrefix`: parse one complete recognized sequence
from the start of the buffer, returning the parsed key and the number of
characters consumed.  Every rule fills `sequence` with
`buffer.slice(0, length)`. -/
def parseKittyPrefix (l : List Char) : Option (Key × Nat) :=
  (parseRules l).map fun p =>
    ({ name := p.1.name, ctrl := p.1.ctrl, meta := p.1.meta,
       shift := p.1.shift, paste := false, sequence := l.take p.2,
       kittyProtocol := true }, p.2)

/-- Source `couldBeKittySequence`: can the buffer still become (a prefix
of) a recognized sequence? -/
def couldBeKittySequence (l : List Char) : Bool :=
  match l with
  | [] => true
  | [c] => c = ESCc
  | c1 :: c2 :: rest =>
    if c1 = ESCc ∧ c2 = '[' then
      match rest with
      | [] => true
      | c3 :: rest2 =>
        c3.isDigit ||
        decide (c3 ∈ ['A', 'B', 'C', 'D', 'H', 'F', 'P', 'Q', 'R', 'S', 'Z']) ||
        (decide (c3 = '1') && match rest2 with
                              | ';' :: c5 :: _ => c5.isDigit
                              | _ => false)
    else false

/-- Dispatcher state: the accumulation buffers and timer flags owned by
the keypress provider (`isPaste`, `pasteBuffer`, `kittySequenceBuffer`,
`kittySequenceTimeout`, `waitingForEnterAfterBackslash` /
`backslashTimeout` with the captured backslash key, and the drag
heuristic's `isDraggingRef` / `dragBufferRef` / `draggingTimerRef` with
the key captured by the timer closure). -/
structure KState where
  isPaste : Bool
  pasteBuffer : List Char
  kittyBuf : List Char
  kittyTimeout : Bool
  waitingBackslash : Bool
  backslashTimer : Bool
  backslashKey : Key
  dragging : Bool
  dragBuf : List Char
  dragTimer : Bool
  dragLastKey : Key
deriving Repr, DecidableEq

/-- An inert default key record. -/
def nullKey : Key :=
  { name := "", ctrl := false, meta := false, shift := false,
    paste := false, sequence := [] }

/-- The dispatcher's initial state: every buffer empty, no timer pending. -/
def initState : KState :=
  { isPaste := false, pasteBuffer := [], kittyBuf := [],
    kittyTimeout := false, waitingBackslash := false,
    backslashTimer := false, backslashKey := nullKey,
    dragging := false, dragBuf := [], dragTimer := false,
    dragLastKey := nullKey }

/-- One output of a processing step: either a broadcast key event, or a
ghost marker recording characters the source discards without emission
(consumed framing markers, garbage dropped before a later `ESC`, the
buffer cleared on Ctrl+C, a backslash fused into a synthetic
shift+return).  The markers carry no behaviour; they only make the byte
accounting explicit. -/
inductive Item where
  | emit (k : Key)
  | disc (cs : List Char)
deriving Repr, DecidableEq

/-- The broadcast events among a step's outputs. -/
def broadcasts (items : List Item) : List Key :=
  items.filterMap fun i => match i with
    | Item.emit k => some k
    | Item.disc _ => none

/-- A raw/unnamed verbatim event carrying buffered characters. -/
def rawEvent (cs : List Char) : Key :=
  { name := "", ctrl := false, meta := false, shift := false,
    paste := false, sequence := cs }

/-- A paste event carrying accumulated payload. -/
def pasteEvent (cs : List Char) : Key :=
  { name := "", ctrl := false, meta := false, shift := false,
    paste := true, sequence := cs }

/-- Index of the first `ESC` at position ≥ 1 (source
`remainingBuffer.indexOf(ESC, 1)`). -/
def nextEscIdx (l : List Char) : Option Nat :=
  match l with
  | [] => none
  | _ :: rest => (rest.findIdx? (· = ESCc)).map (· + 1)

/-- The excluded-prefix test of the kitty accumulation entry condition:
the sequence starts with a paste marker or focus framing sequence. -/
def excludedSeq (l : List Char) : Bool :=
  listStartsWith l PASTE_MODE_PREFIX || listStartsWith l PASTE_MODE_SUFFIX ||
  listStartsWith l FOCUS_IN || listStartsWith l FOCUS_OUT

/-- Result of the peel-and-continue loop over the escape-sequence
buffer. -/
structure LoopOut where
  items : List Item
  rem : List Char
  timeoutSet : Bool
  parsedAny : Bool
deriving Repr, DecidableEq

/-- Fuel-indexed body of the peel-and-continue loop (each iteration
strictly shortens the buffer, so `buf.length + 1` fuel always suffices;
see `kittyLoopF_fuel`). -/
def kittyLoopF : Nat → List Char → LoopOut
  | 0, buf => { items := [], rem := buf, timeoutSet := false,
                parsedAny := false }
  | fuel + 1, buf =>
    if buf = [] then
      { items := [], rem := [], timeoutSet := false, parsedAny := false }
    else
      match parseKittyPrefix buf with
      | some (k, n) =>
        let r := kittyLoopF fuel (buf.drop n)
        { r with items := Item.emit k :: r.items, parsedAny := true }
      | none =>
        match nextEscIdx buf with
        | some i =>
          let r := kittyLoopF fuel (buf.drop i)
          { r with items := Item.disc (buf.take i) :: r.items }
        | none =>
          if couldBeKittySequence buf then
            if MAX_KITTY_SEQUENCE_LENGTH < buf.length then
              { items := [Item.emit (rawEvent buf)], rem := [],
                timeoutSet := false, parsedAny := true }
            else
              { items := [], rem := buf, timeoutSet := true,
                parsedAny := false }
          else
            { items := [Item.emit (rawEvent buf)], rem := [],
              timeoutSet := false, parsedAny := true }

/-- The `while (remainingBuffer)` peel-and-continue loop of
`handleKeypress`: parse a complete prefix and broadcast it; otherwise
drop garbage before a later `ESC`; otherwise flush a dead-end buffer
immediately, flush on overflow, or schedule the bounded-wait timeout and
stop. -/
def kittyLoop (buf : List Char) : LoopOut :=
  kittyLoopF (buf.length + 1) buf

/-- The trailing stage of `handleKeypress`: remap `ESC CR` to
meta+return, then broadcast the key as-is with `paste` tagged from the
current paste mode. -/
def finalStage (s : KState) (k : Key) (pre : List Item) :
    KState × List Item :=
  let k' := if k.name = "return" ∧ k.sequence = [ESCc, '\r']
            then { k with meta := true } else k
  (s, pre ++ [Item.emit { k' with paste := s.isPaste }])

/-- `flushKittyBufferOnInterrupt`: broadcast a non-empty escape buffer
verbatim and cancel its timeout. -/
def flushKitty (s : KState) : KState × List Item :=
  ({ s with kittyBuf := [], kittyTimeout := false },
   if s.kittyBuf = [] then [] else [Item.emit (rawEvent s.kittyBuf)])

/-- The stages of `handleKeypress` reached after the backslash stage:
arrow-name passthrough, the Ctrl+C interrupt (which clears the pending
escape buffer without emitting it), the kitty accumulation /
peel-and-continue classification, and the default passthrough. -/
def lateStage (enabled : Bool) (s : KState) (k : Key) :
    KState × List Item :=
  if k.name = "up" ∨ k.name = "down" ∨ k.name = "left" ∨
     k.name = "right" then
    (s, [Item.emit k])
  else if (k.ctrl ∧ k.name = "c") ∨ k.sequence = ESCc :: KITTY_CTRL_C then
    ({ s with kittyBuf := [], kittyTimeout := false },
     [Item.disc s.kittyBuf,
      Item.emit (if k.sequence = ESCc :: KITTY_CTRL_C then
        { name := "c", ctrl := true, meta := false, shift := false,
          paste := false, sequence := k.sequence, kittyProtocol := true }
      else k)])
  else if enabled then
    let sc := { s with kittyTimeout := false }
    if sc.kittyBuf ≠ [] ∨
       (listStartsWith k.sequence [ESCc] ∧ ¬excludedSeq k.sequence) then
      let r := kittyLoop (sc.kittyBuf ++ k.sequence)
      let s' := { sc with kittyBuf := r.rem, kittyTimeout := r.timeoutSet }
      if r.parsedAny ∨ r.rem ≠ [] then (s', r.items)
      else finalStage s' k r.items
    else finalStage sc k []
  else finalStage s k []

/-- Source `handleKeypress` (first version, the one with the
kitty-sequence timeout), as a step function from a key notification to
the next state and the ordered outputs of the step. -/
def handleKeypress (enabled : Bool) (s : KState) (k : Key) :
    KState × List Item :=
  if k.sequence = FOCUS_IN ∨ k.sequence = FOCUS_OUT then
    let f := flushKitty s
    (f.1, f.2 ++ [Item.disc k.sequence])
  else if k.name = "paste-start" then
    let f := flushKitty s
    ({ f.1 with isPaste := true }, f.2 ++ [Item.disc k.sequence])
  else if k.name = "paste-end" then
    ({ s with isPaste := false, pasteBuffer := [] },
     [Item.emit (pasteEvent s.pasteBuffer), Item.disc k.sequence])
  else if s.isPaste then
    ({ s with pasteBuffer := s.pasteBuffer ++ k.sequence }, [])
  else if k.sequence = [SINGLE_QUOTE] ∨ k.sequence = [DOUBLE_QUOTE] ∨
          s.dragging then
    ({ s with dragging := true, dragBuf := s.dragBuf ++ k.sequence,
              dragTimer := true, dragLastKey := k }, [])
  else if h : (altMap k.sequence).isSome ∧ ¬k.meta then
    (s, [Item.emit { name := String.mk [(altMap k.sequence).get h.1],
                     ctrl := false, meta := true, shift := false,
                     paste := s.isPaste, sequence := k.sequence }])
  else if k.name = "return" ∧ s.waitingBackslash then
    ({ s with waitingBackslash := false, backslashTimer := false },
     [Item.emit { k with shift := true, sequence := ['\r'] },
      Item.disc s.backslashKey.sequence])
  else if k.sequence = [BACKSLASH] ∧ k.name = "" then
    ({ s with waitingBackslash := true, backslashTimer := true,
              backslashKey := k }, [])
  else
    -- the backslash-interrupt branch falls through to the rest
    if s.waitingBackslash ∧ k.name ≠ "return" then
      let r := lateStage enabled
        { s with waitingBackslash := false, backslashTimer := false } k
      (r.1, Item.emit (rawEvent [BACKSLASH]) :: r.2)
    else lateStage enabled s k

/-- The kitty-sequence timeout firing: flush a still-non-empty escape
buffer verbatim and clear the timer. -/
def fireKittyTimeout (s : KState) : KState × List Item :=
  if s.kittyTimeout then
    ({ s with kittyBuf := [], kittyTimeout := false },
     if s.kittyBuf = [] then [] else [Item.emit (rawEvent s.kittyBuf)])
  else (s, [])

/-- The drag-completion timer firing: end the accumulation window and
broadcast the collected buffer as one paste event (flags inherited from
the key captured by the timer closure). -/
def fireDragTimer (s : KState) : KState × List Item :=
  if s.dragTimer then
    let ev : Key :=
      { s.dragLastKey with name := "", paste := true,
                           sequence := s.dragBuf }
    ({ s with dragging := false, dragBuf := [], dragTimer := false },
     if s.dragBuf = [] then [] else [Item.emit ev])
  else (s, [])

/-- The backslash-continuation window elapsing: broadcast the captured
backslash key verbatim. -/
def fireBackslashTimeout (s : KState) : KState × List Item :=
  if s.backslashTimer then
    ({ s with waitingBackslash := false, backslashTimer := false },
     [Item.emit s.backslashKey])
  else (s, [])

/-- One unit of trace input: a key notification, or one of the three
timers firing. -/
inductive Notif where
  | key (k : Key)
  | fireKitty
  | fireDrag
  | fireBackslash
deriving Repr, DecidableEq

/-- One trace step. -/
def stepNotif (enabled : Bool) (s : KState) (n : Notif) :
    KState × List Item :=
  match n with
  | Notif.key k => handleKeypress enabled s k
  | Notif.fireKitty => fireKittyTimeout s
  | Notif.fireDrag => fireDragTimer s
  | Notif.fireBackslash => fireBackslashTimeout s

/-- Run a finite trace of notifications and timer firings, collecting
the outputs in order. -/
def runK (enabled : Bool) (s : KState) : List Notif → KState × List Item
  | [] => (s, [])
  | n :: ns =>
    let r := stepNotif enabled s n
    let r' := runK enabled r.1 ns
    (r'.1, r.2 ++ r'.2)

/-- The teardown cleanup: cancel the backslash window (its pending
backslash is discarded, not flushed), then flush the escape buffer, the
pending paste payload, and the drag buffer, in source order. -/
def teardownK (s : KState) : List Item :=
  (if s.waitingBackslash then [Item.disc s.backslashKey.sequence] else []) ++
  (if s.kittyBuf = [] then [] else [Item.emit (rawEvent s.kittyBuf)]) ++
  (if s.isPaste then [Item.emit (pasteEvent s.pasteBuffer)] else []) ++
  (if s.dragging ∧ s.dragBuf ≠ [] then
     [Item.emit (pasteEvent s.dragBuf)] else [])

/-- First index in `l` at which `pat` occurs as a sublist (JS
`Buffer.indexOf`). -/
def findSub (pat : List Char) : List Char → Option Nat
  | [] => if pat = [] then some 0 else none
  | c :: rest =>
    if listStartsWith (c :: rest) pat then some 0
    else (findSub pat rest).map (· + 1)

/-- A synthetic paste framing key event (`createPasteKeyEvent`). -/
def pasteMarkerEvent (n : String) : Key :=
  { name := n, ctrl := false, meta := false, shift := false,
    paste := false, sequence := [] }

/-- Deliver a list of tokenized key notifications to `handleKeypress` in
order. -/
def feedKeys (enabled : Bool) (s : KState) : List Key → KState × List Item
  | [] => (s, [])
  | k :: ks =>
    let r := handleKeypress enabled s k
    let r' := feedKeys enabled r.1 ks
    (r'.1, r.2 ++ r'.2)

/-- Position and kind of the next paste marker in a raw chunk (source:
`indexOf` for both markers, earliest wins; a prefix marker wins a tie,
which cannot occur since the markers differ). -/
def nextMarker (data : List Char) : Option (Nat × Bool) :=
  match findSub PASTE_MODE_PREFIX data, findSub PASTE_MODE_SUFFIX data with
  | none, none => none
  | some i, none => some (i, true)
  | none, some j => some (j, false)
  | some i, some j => if i < j then some (i, true) else some (j, false)

/-- Source `handleRawKeypress` on the non-Windows path: scan the chunk
left to right for the two paste markers; data before a marker is written
to the keypress stream (delivered through the external tokenizer `tok`
to `handleKeypress`), each marker becomes a synthetic paste-start /
paste-end notification. -/
def handleRawF (enabled : Bool) (tok : List Char → List Key) :
    Nat → KState → List Char → KState × List Item
  | 0, s, _ => (s, [])
  | fuel + 1, s, data =>
    match nextMarker data with
    | none => feedKeys enabled s (tok data)
    | some (i, isPre) =>
      let r1 := feedKeys enabled s (tok (data.take i))
      let r2 := handleKeypress enabled r1.1
        (pasteMarkerEvent (if isPre then "paste-start" else "paste-end"))
      let r3 := handleRawF enabled tok fuel r2.1 (data.drop (i + 6))
      (r3.1, r1.2 ++ r2.2 ++ r3.2)

/-- Wrapper giving the scan loop enough fuel (each found marker strictly
shortens the remaining chunk). -/
def handleRawKeypress (enabled : Bool) (tok : List Char → List Key)
    (s : KState) (data : List Char) : KState × List Item :=
  handleRawF enabled tok (data.length + 1) s data

/-- A per-character tokenizer standing in for the external readline
layer: each written character is delivered as one unnamed key
notification carrying it as `sequence`. -/
def perCharTok (l : List Char) : List Key :=
  l.map fun c => { name := "", ctrl := false, meta := false,
                   shift := false, paste := false, sequence := [c] }

/-- Feed a list of raw chunks through `handleRawKeypress`. -/
def feedRawChunks (enabled : Bool) (tok : List Char → List Key)
    (s : KState) : List (List Char) → KState × List Item
  | [] => (s, [])
  | c :: cs =>
    let r := handleRawKeypress enabled tok s c
    let r' := feedRawChunks enabled tok r.1 cs
    (r'.1, r.2 ++ r'.2)

-- ## Byte accounting (ghost layer for the conservation analysis)

/-- The characters carried by one output item. -/
def itemBytes : Item → List Char
  | Item.emit k => k.sequence
  | Item.disc cs => cs

/-- All characters carried by a list of outputs, in order. -/
def itemsBytes (its : List Item) : List Char :=
  (its.map itemBytes).join

/-- The characters a notification feeds into the dispatcher (timer
firings feed none). -/
def notifBytes : Notif → List Char
  | Notif.key k => k.sequence
  | _ => []

/-- All characters fed by a trace, in order. -/
def traceBytes (ns : List Notif) : List Char :=
  (ns.map notifBytes).join

/-- The characters currently buffered inside the dispatcher state: the
escape-sequence buffer, the paste payload, the drag payload, and the
captured backslash while its wait window is pending. -/
def stateBytes (s : KState) : List Char :=
  s.kittyBuf ++ s.pasteBuffer ++ s.dragBuf ++
  (if s.waitingBackslash then s.backslashKey.sequence else [])

/-- The reachable-state invariants used by the byte accounting: a
pending backslash capture holds exactly the backslash byte, the paste
and drag buffers are empty outside their modes, and the backslash wait
flag agrees with its timer. -/
def Invar (s : KState) : Prop :=
  (s.waitingBackslash = true → s.backslashKey.sequence = [BACKSLASH]) ∧
  (s.isPaste = false → s.pasteBuffer = []) ∧
  (s.dragging = false → s.dragBuf = []) ∧
  s.waitingBackslash = s.backslashTimer

instance InvarDec (s : KState) : Decidable (Invar s) := by
  unfold Invar
  exact inferInstanceAs (Decidable (_ ∧ _ ∧ _ ∧ _))

/-- Trace-step side conditions under which the byte accounting is
exact: a key named `return` carries the plain CR sequence, and no fresh
lone backslash arrives while a backslash wait window is already pending
(in the source that path recaptures the key and orphans the previous
window's timer). -/
def stepSafe (s : KState) (n : Notif) : Prop :=
  match n with
  | Notif.key k =>
    (k.name = "return" → k.sequence = ['\r']) ∧
    ¬(k.sequence = [BACKSLASH] ∧ k.name = "" ∧ s.waitingBackslash = true)
  | _ => True

instance stepSafeDec (s : KState) (n : Notif) : Decidable (stepSafe s n) := by
  unfold stepSafe
  cases n
  · exact inferInstanceAs (Decidable (_ ∧ _))
  · exact inferInstanceAs (Decidable True)
  · exact inferInstanceAs (Decidable True)
  · exact inferInstanceAs (Decidable True)

/-- Every step along the run satisfies the side conditions. -/
def safeRun (e : Bool) (s : KState) : List Notif → Prop
  | [] => True
  | n :: ns => stepSafe s n ∧ safeRun e (stepNotif e s n).1 ns

instance safeRunDec (e : Bool) (s : KState) (ns : List Notif) :
    Decidable (safeRun e s ns) :=
  match ns with
  | [] => isTrue trivial
  | n :: ns =>
    have := safeRunDec e (stepNotif e s n).1 ns
    inferInstanceAs (Decidable (_ ∧ _))

/-- A plain Ctrl+C key notification as produced by the base tokenizer
(`name:"c"`, `ctrl`, sequence `\x03`). -/
def ctrlCKey : Key :=
  { name := "c", ctrl := true, meta := false, shift := false,
    paste := false, sequence := ['\u0003'] }

/-- A plain Return key notification. -/
def returnKey : Key :=
  { name := "return", ctrl := false, meta := false, shift := false,
    paste := false, sequence := ['\r'] }

/-- Concrete chunk for the completeness counterexample: an unparseable
CSI prefix directly followed by a complete arrow sequence. -/
def c1cexSeq : List Char := [ESCc, '[', 'x', ESCc, '[', 'A']

/-- State with a pending (incomplete) escape buffer `ESC [`. -/
def c2state : KState := (handleKeypress true initState (rawEvent [ESCc, '['])).1

/-- State in the backslash-continuation wait window. -/
def c8state : KState := (handleKeypress true initState (rawEvent [BACKSLASH])).1

/-- Trace: an incomplete kitty fragment, then a single-quote key. -/
def c9trace : List Notif :=
  [Notif.key (rawEvent [ESCc, '[', '1']), Notif.key (rawEvent [SINGLE_QUOTE])]

/-- The state reached by `c9trace`. -/
def c9state : KState := (runK true initState c9trace).1

-- ## Helper lemmas

theorem rule0_pos {l : List Char} {i : KInfo} {n : Nat}
    (h : ruleRevTabLegacy l = some (i, n)) : 0 < n := by
  unfold ruleRevTabLegacy at h
  repeat' split at h
  all_goals (try simp_all)
  all_goals omega

theorem rule1_pos {l : List Char} {i : KInfo} {n : Nat}
    (h : ruleRevTabParam l = some (i, n)) : 0 < n := by
  unfold ruleRevTabParam at h
  simp only [] at h
  repeat' split at h
  all_goals (try simp_all)
  all_goals omega

theorem rule2_pos {l : List Char} {i : KInfo} {n : Nat}
    (h : ruleArrow l = some (i, n)) : 0 < n := by
  unfold ruleArrow at h
  simp only [] at h
  repeat' split at h
  all_goals (try simp_all)
  all_goals omega

theorem rule3_pos {l : List Char} {i : KInfo} {n : Nat}
    (h : ruleCsiU l = some (i, n)) : 0 < n := by
  unfold ruleCsiU at h
  simp only [] at h
  repeat' split at h
  all_goals (try simp_all)
  all_goals (try (rcases h with ⟨a, -, hn⟩))
  all_goals omega

theorem rule4_pos {l : List Char} {i : KInfo} {n : Nat}
    (h : ruleLegacy l = some (i, n)) : 0 < n := by
  unfold ruleLegacy at h
  repeat' split at h
  all_goals (try simp_all)
  all_goals omega

theorem parseRules_pos {l : List Char} {i : KInfo} {n : Nat}
    (h : parseRules l = some (i, n)) : 0 < n := by
  unfold parseRules at h
  cases h0 : ruleRevTabLegacy l with
  | some p =>
    rw [h0] at h
    simp only [Option.orElse, Option.some.injEq] at h
    subst h
    exact rule0_pos h0
  | none =>
  rw [h0] at h
  simp only [Option.orElse] at h
  cases h1 : ruleRevTabParam l with
  | some p =>
    rw [h1] at h
    simp only [Option.orElse, Option.some.injEq] at h
    subst h
    exact rule1_pos h1
  | none =>
  rw [h1] at h
  simp only [Option.orElse] at h
  cases h2 : ruleArrow l with
  | some p =>
    rw [h2] at h
    simp only [Option.orElse, Option.some.injEq] at h
    subst h
    exact rule2_pos h2
  | none =>
  rw [h2] at h
  simp only [Option.orElse] at h
  cases h3 : ruleCsiU l with
  | some p =>
    rw [h3] at h
    simp only [Option.orElse, Option.some.injEq] at h
    subst h
    exact rule3_pos h3
  | none =>
  rw [h3] at h
  simp only [Option.orElse] at h
  exact rule4_pos h

theorem parse_length_pos {l : List Char} {k : Key} {n : Nat}
    (h : parseKittyPrefix l = some (k, n)) : 0 < n := by
  unfold parseKittyPrefix at h
  cases hr : parseRules l with
  | none => simp [hr] at h
  | some p =>
    obtain ⟨pi, pn⟩ := p
    rw [hr] at h
    simp only [Option.map_some', Option.some.injEq] at h
    have hn : pn = n := by
      have := congrArg Prod.snd h
      simpa using this
    exact hn ▸ parseRules_pos hr

theorem nextEscIdx_pos {l : List Char} {i : Nat}
    (h : nextEscIdx l = some i) : 0 < i ∧ i < l.length := by
  unfold nextEscIdx at h
  cases l with
  | nil => simp at h
  | cons a rest =>
    simp only [Option.map_eq_some'] at h
    obtain ⟨j, hj, rfl⟩ := h
    have hlt := List.findIdx?_eq_some_iff_findIdx_eq.mp hj
    refine ⟨by omega, ?_⟩
    simp only [List.length_cons]
    omega

theorem findSub_lt {pat l : List Char} {i : Nat} (hp : pat ≠ [])
    (h : findSub pat l = some i) : i < l.length := by
  induction l generalizing i with
  | nil => simp [findSub, hp] at h
  | cons c rest ih =>
    unfold findSub at h
    split at h
    · cases h; simp
    · simp only [Option.map_eq_some'] at h
      obtain ⟨j, hj, rfl⟩ := h
      have := ih hj
      simp only [List.length_cons]
      omega

theorem nextMarker_lt {data : List Char} {i : Nat} {b : Bool}
    (h : nextMarker data = some (i, b)) : i < data.length := by
  unfold nextMarker at h
  cases hp : findSub PASTE_MODE_PREFIX data with
  | some x =>
    cases hs : findSub PASTE_MODE_SUFFIX data with
    | some y =>
      rw [hp, hs] at h
      have hx := findSub_lt (by simp [PASTE_MODE_PREFIX]) hp
      have hy := findSub_lt (by simp [PASTE_MODE_SUFFIX]) hs
      dsimp only [] at h
      by_cases hxy : x < y
      · rw [if_pos hxy] at h
        simp only [Option.some.injEq, Prod.mk.injEq] at h
        obtain ⟨rfl, -⟩ := h
        omega
      · rw [if_neg hxy] at h
        simp only [Option.some.injEq, Prod.mk.injEq] at h
        obtain ⟨rfl, -⟩ := h
        omega
    | none =>
      rw [hp, hs] at h
      cases h
      exact findSub_lt (by simp [PASTE_MODE_PREFIX]) hp
  | none =>
    cases hs : findSub PASTE_MODE_SUFFIX data with
    | some y =>
      rw [hp, hs] at h
      cases h
      exact findSub_lt (by simp [PASTE_MODE_SUFFIX]) hs
    | none => rw [hp, hs] at h; cases h

-- ## Digit-span helpers

theorem digSpan_le (l : List Char) : digSpan l ≤ l.length := by
  induction l with
  | nil => simp [digSpan]
  | cons c cs ih =>
    unfold digSpan
    split <;> simp <;> omega

theorem digSpan_take_digits (l : List Char) :
    ∀ c ∈ l.take (digSpan l), c.isDigit = true := by
  induction l with
  | nil => simp [digSpan]
  | cons c cs ih =>
    unfold digSpan
    split
    · intro x hx
      simp only [List.take_succ_cons, List.mem_cons] at hx
      rcases hx with rfl | hx
      · assumption
      · exact ih x hx
    · simp

theorem digSpan_exact {ds : List Char} {t : Char} (rest : List Char)
    (hdig : ∀ c ∈ ds, c.isDigit = true) (ht : t.isDigit = false) :
    digSpan (ds ++ t :: rest) = ds.length := by
  induction ds with
  | nil => simp [digSpan, ht]
  | cons d ds ih =>
    simp only [List.cons_append]
    unfold digSpan
    rw [if_pos (hdig d (by simp))]
    rw [ih (fun c hc => hdig c (by simp [hc]))]
    simp

theorem isDigit_ne {c z : Char} (hc : c.isDigit = true)
    (hz : z.isDigit = false) : c ≠ z := by
  intro h
  rw [h] at hc
  rw [hc] at hz
  cases hz

/-- The shapes of buffers accepted by the five classifier rules, with
the rule's name/modifier output and consumed length. -/
inductive ShapeSpec : List Char → KInfo → Nat → Prop where
  | revTabLegacy (r : List Char) :
      ShapeSpec (ESCc :: '[' :: 'Z' :: r)
        { name := "tab", ctrl := false, meta := false, shift := true } 3
  | revTabParam (ds z : List Char) (hne : ds ≠ [])
      (hdig : ∀ c ∈ ds, c.isDigit = true) :
      ShapeSpec (ESCc :: '[' :: '1' :: ';' :: (ds ++ 'Z' :: z))
        { name := "tab",
          ctrl := (decodeMods (natOfDigits ds)).2.2,
          meta := (decodeMods (natOfDigits ds)).2.1, shift := true }
        (5 + ds.length)
  | arrow (ds z : List Char) (sym : Char) (hne : ds ≠ [])
      (hdig : ∀ c ∈ ds, c.isDigit = true) (hsym : sym ∈ arrowLetters) :
      ShapeSpec (ESCc :: '[' :: '1' :: ';' :: (ds ++ sym :: z))
        { name := arrowName sym,
          ctrl := (decodeMods (natOfDigits ds)).2.2,
          meta := (decodeMods (natOfDigits ds)).2.1,
          shift := (decodeMods (natOfDigits ds)).1 }
        (5 + ds.length)
  | csiUNoMods (ds z : List Char) (t : Char) (i : KInfo) (hne : ds ≠ [])
      (hdig : ∀ c ∈ ds, c.isDigit = true) (ht : t = 'u' ∨ t = '~')
      (hinfo : csiUInfo (natOfDigits ds) KITTY_MODIFIER_BASE t = some i) :
      ShapeSpec (ESCc :: '[' :: (ds ++ t :: z)) i (3 + ds.length)
  | csiUMods (d1 d2 z : List Char) (t : Char) (i : KInfo)
      (hne1 : d1 ≠ []) (hne2 : d2 ≠ [])
      (hdig1 : ∀ c ∈ d1, c.isDigit = true)
      (hdig2 : ∀ c ∈ d2, c.isDigit = true) (ht : t = 'u' ∨ t = '~')
      (hinfo : csiUInfo (natOfDigits d1) (natOfDigits d2) t = some i) :
      ShapeSpec (ESCc :: '[' :: (d1 ++ ';' :: (d2 ++ t :: z))) i
        (4 + d1.length + d2.length)
  | legacy (r : List Char) (c : Char) (hc : c ∈ legacyLetters) :
      ShapeSpec (ESCc :: '[' :: c :: r)
        { name := legacyName c, ctrl := false, meta := false,
          shift := false } 3

-- ## kittyLoop unfolding lemmas

theorem kittyLoopF_congr (n : Nat) : ∀ (buf : List Char) (f1 f2 : Nat),
    buf.length = n → n < f1 → n < f2 →
    kittyLoopF f1 buf = kittyLoopF f2 buf := by
  induction n using Nat.strong_induction_on with
  | _ n ih =>
    intro buf f1 f2 hlen h1 h2
    match f1, f2 with
    | g1 + 1, g2 + 1 =>
      unfold kittyLoopF
      by_cases hb : buf = []
      · rw [if_pos hb, if_pos hb]
      rw [if_neg hb, if_neg hb]
      cases hp : parseKittyPrefix buf with
      | some p =>
        obtain ⟨k, m⟩ := p
        have hm := parse_length_pos hp
        have hbl : 0 < buf.length := List.length_pos.mpr hb
        have hd : (buf.drop m).length < n := by
          simp only [List.length_drop]
          omega
        dsimp only
        rw [ih _ hd (buf.drop m) g1 g2 rfl
            (by simp only [List.length_drop]; omega)
            (by simp only [List.length_drop]; omega)]
      | none =>
        cases he : nextEscIdx buf with
        | some i =>
          have hi := nextEscIdx_pos he
          have hd : (buf.drop i).length < n := by
            simp only [List.length_drop]
            omega
          dsimp only
          rw [ih _ hd (buf.drop i) g1 g2 rfl
              (by simp only [List.length_drop]; omega)
              (by simp only [List.length_drop]; omega)]
        | none => rfl

theorem kittyLoop_nil :
    kittyLoop [] =
      { items := [], rem := [], timeoutSet := false, parsedAny := false } :=
  rfl

theorem kittyLoop_parse {buf : List Char} {k : Key} {n : Nat}
    (hp : parseKittyPrefix buf = some (k, n)) :
    kittyLoop buf =
      { kittyLoop (buf.drop n) with
        items := Item.emit k :: (kittyLoop (buf.drop n)).items,
        parsedAny := true } := by
  have hb : buf ≠ [] := by
    intro h
    subst h
    simp [parseKittyPrefix, parseRules, ruleRevTabLegacy, ruleRevTabParam,
          ruleArrow, ruleCsiU, ruleLegacy, Option.orElse] at hp
  have hn := parse_length_pos hp
  have hbl : 0 < buf.length := List.length_pos.mpr hb
  unfold kittyLoop
  rw [kittyLoopF]
  rw [if_neg hb, hp]
  dsimp only
  rw [kittyLoopF_congr (buf.drop n).length (buf.drop n) buf.length
      ((buf.drop n).length + 1) rfl
      (by simp only [List.length_drop]; omega) (by omega)]

theorem kittyLoop_garbage {buf : List Char} {i : Nat}
    (hb : buf ≠ []) (hp : parseKittyPrefix buf = none)
    (he : nextEscIdx buf = some i) :
    kittyLoop buf =
      { kittyLoop (buf.drop i) with
        items := Item.disc (buf.take i) :: (kittyLoop (buf.drop i)).items } := by
  have hi := nextEscIdx_pos he
  unfold kittyLoop
  rw [kittyLoopF]
  rw [if_neg hb, hp, he]
  dsimp only
  rw [kittyLoopF_congr (buf.drop i).length (buf.drop i) buf.length
      ((buf.drop i).length + 1) rfl
      (by simp only [List.length_drop]; omega) (by omega)]

theorem kittyLoop_flush {buf : List Char}
    (hb : buf ≠ []) (hp : parseKittyPrefix buf = none)
    (he : nextEscIdx buf = none) (hc : couldBeKittySequence buf = false) :
    kittyLoop buf =
      { items := [Item.emit (rawEvent buf)], rem := [],
        timeoutSet := false, parsedAny := true } := by
  unfold kittyLoop kittyLoopF
  rw [if_neg hb, hp, he, hc]
  simp

theorem kittyLoop_timeout {buf : List Char}
    (hb : buf ≠ []) (hp : parseKittyPrefix buf = none)
    (he : nextEscIdx buf = none) (hc : couldBeKittySequence buf = true)
    (hlen : ¬ MAX_KITTY_SEQUENCE_LENGTH < buf.length) :
    kittyLoop buf =
      { items := [], rem := buf, timeoutSet := true,
        parsedAny := false } := by
  unfold kittyLoop kittyLoopF
  rw [if_neg hb, hp, he, hc]
  simp [hlen]

theorem kittyLoop_overflow {buf : List Char}
    (hb : buf ≠ []) (hp : parseKittyPrefix buf = none)
    (he : nextEscIdx buf = none) (hc : couldBeKittySequence buf = true)
    (hlen : MAX_KITTY_SEQUENCE_LENGTH < buf.length) :
    kittyLoop buf =
      { items := [Item.emit (rawEvent buf)], rem := [],
        timeoutSet := false, parsedAny := true } := by
  unfold kittyLoop kittyLoopF
  rw [if_neg hb, hp, he, hc]
  simp [hlen]

-- ## Rule inversion lemmas

theorem rule0_inv {l : List Char} {i : KInfo} {n : Nat}
    (h : ruleRevTabLegacy l = some (i, n)) :
    ∃ r, l = ESCc :: '[' :: 'Z' :: r ∧
      i = { name := "tab", ctrl := false, meta := false, shift := true } ∧
      n = 3 := by
  unfold ruleRevTabLegacy at h
  split at h
  · split at h
    · rename_i a b c t hcond
      obtain ⟨rfl, rfl, rfl⟩ := hcond
      simp only [Option.some.injEq, Prod.mk.injEq] at h
      exact ⟨t, rfl, h.1.symm, h.2.symm⟩
    · cases h
  · cases h

theorem rule1_inv {l : List Char} {i : KInfo} {n : Nat}
    (h : ruleRevTabParam l = some (i, n)) :
    ∃ ds z, l = ESCc :: '[' :: '1' :: ';' :: (ds ++ 'Z' :: z) ∧ ds ≠ [] ∧
      (∀ c ∈ ds, c.isDigit = true) ∧
      i = { name := "tab", ctrl := (decodeMods (natOfDigits ds)).2.2,
            meta := (decodeMods (natOfDigits ds)).2.1, shift := true } ∧
      n = 5 + ds.length := by
  unfold ruleRevTabParam at h
  split at h
  · rename_i a b c d rest
    simp only [] at h
    split at h
    · rename_i hcond
      obtain ⟨rfl, rfl, rfl, rfl⟩ := hcond
      split at h
      · cases h
      · rename_i hd0
        split at h
        · rename_i tail hdrop
          simp only [Option.some.injEq, Prod.mk.injEq] at h
          have hle := digSpan_le rest
          have hlen : (rest.take (digSpan rest)).length = digSpan rest := by
            simp [hle]
          refine ⟨rest.take (digSpan rest), tail, ?_, ?_, ?_, ?_, ?_⟩
          · rw [← hdrop, List.take_append_drop]
          · intro hnil
            rw [hnil] at hlen
            simp at hlen
            omega
          · exact digSpan_take_digits rest
          · exact h.1.symm
          · rw [← h.2, hlen]
            omega
        · cases h
    · cases h
  · cases h

theorem rule2_inv {l : List Char} {i : KInfo} {n : Nat}
    (h : ruleArrow l = some (i, n)) :
    ∃ ds z sym, l = ESCc :: '[' :: '1' :: ';' :: (ds ++ sym :: z) ∧
      ds ≠ [] ∧ (∀ c ∈ ds, c.isDigit = true) ∧ sym ∈ arrowLetters ∧
      i = { name := arrowName sym,
            ctrl := (decodeMods (natOfDigits ds)).2.2,
            meta := (decodeMods (natOfDigits ds)).2.1,
            shift := (decodeMods (natOfDigits ds)).1 } ∧
      n = 5 + ds.length := by
  unfold ruleArrow at h
  split at h
  · rename_i a b c d rest
    simp only [] at h
    split at h
    · rename_i hcond
      obtain ⟨rfl, rfl, rfl, rfl⟩ := hcond
      split at h
      · cases h
      · rename_i hd0
        split at h
        · rename_i sym tail hdrop
          split at h
          · rename_i hsym
            simp only [Option.some.injEq, Prod.mk.injEq] at h
            have hle := digSpan_le rest
            have hlen : (rest.take (digSpan rest)).length = digSpan rest := by
              simp [hle]
            refine ⟨rest.take (digSpan rest), tail, sym, ?_, ?_, ?_, hsym,
              ?_, ?_⟩
            · rw [← hdrop, List.take_append_drop]
            · intro hnil
              rw [hnil] at hlen
              simp at hlen
              omega
            · exact digSpan_take_digits rest
            · exact h.1.symm
            · rw [← h.2, hlen]
              omega
          · cases h
        · cases h
    · cases h
  · cases h

theorem rule3_inv {l : List Char} {i : KInfo} {n : Nat}
    (h : ruleCsiU l = some (i, n)) :
    (∃ ds z t, l = ESCc :: '[' :: (ds ++ t :: z) ∧ ds ≠ [] ∧
       (∀ c ∈ ds, c.isDigit = true) ∧ (t = 'u' ∨ t = '~') ∧
       csiUInfo (natOfDigits ds) KITTY_MODIFIER_BASE t = some i ∧
       n = 3 + ds.length) ∨
    (∃ d1 d2 z t, l = ESCc :: '[' :: (d1 ++ ';' :: (d2 ++ t :: z)) ∧
       d1 ≠ [] ∧ d2 ≠ [] ∧ (∀ c ∈ d1, c.isDigit = true) ∧
       (∀ c ∈ d2, c.isDigit = true) ∧ (t = 'u' ∨ t = '~') ∧
       csiUInfo (natOfDigits d1) (natOfDigits d2) t = some i ∧
       n = 4 + d1.length + d2.length) := by
  unfold ruleCsiU at h
  split at h
  · rename_i a b rest
    simp only [] at h
    split at h
    · rename_i hcond
      obtain ⟨rfl, rfl⟩ := hcond
      split at h
      · cases h
      · rename_i hd0
        have hle := digSpan_le rest
        have hlen : (rest.take (digSpan rest)).length = digSpan rest := by
          simp [hle]
        split at h
        · rename_i c rest2 hdrop
          split at h
          · -- c = ';' : the mods branch
            rename_i hsemi
            subst hsemi
            try simp only [] at h
            split at h
            · cases h
            · rename_i hd2
              have hle2 := digSpan_le rest2
              have hlen2 :
                  (rest2.take (digSpan rest2)).length = digSpan rest2 := by
                simp [hle2]
              split at h
              · rename_i t tail hdrop2
                split at h
                · rename_i ht
                  rw [Option.map_eq_some'] at h
                  obtain ⟨iv, hiv, heq⟩ := h
                  simp only [Prod.mk.injEq] at heq
                  refine Or.inr ⟨rest.take (digSpan rest),
                    rest2.take (digSpan rest2), tail, t, ?_, ?_, ?_, ?_, ?_,
                    ht, ?_, ?_⟩
                  · rw [← hdrop2, List.take_append_drop, ← hdrop,
                        List.take_append_drop]
                  · intro hnil
                    rw [hnil] at hlen
                    simp at hlen
                    omega
                  · intro hnil
                    rw [hnil] at hlen2
                    simp at hlen2
                    omega
                  · exact digSpan_take_digits rest
                  · exact digSpan_take_digits rest2
                  · rw [heq.1] at hiv
                    exact hiv
                  · rw [← heq.2, hlen, hlen2]
                    omega
                · cases h
              · cases h
          · -- c is itself the terminator : the no-mods branch
            split at h
            · rename_i ht
              rw [Option.map_eq_some'] at h
              obtain ⟨iv, hiv, heq⟩ := h
              simp only [Prod.mk.injEq] at heq
              refine Or.inl ⟨rest.take (digSpan rest), rest2, c, ?_, ?_, ?_,
                ht, ?_, ?_⟩
              · rw [← hdrop, List.take_append_drop]
              · intro hnil
                rw [hnil] at hlen
                simp at hlen
                omega
              · exact digSpan_take_digits rest
              · rw [heq.1] at hiv
                exact hiv
              · rw [← heq.2, hlen]
                omega
            · cases h
        · cases h
    · cases h
  · cases h

theorem rule4_inv {l : List Char} {i : KInfo} {n : Nat}
    (h : ruleLegacy l = some (i, n)) :
    ∃ r c, l = ESCc :: '[' :: c :: r ∧ c ∈ legacyLetters ∧
      i = { name := legacyName c, ctrl := false, meta := false,
            shift := false } ∧ n = 3 := by
  unfold ruleLegacy at h
  split at h
  · split at h
    · rename_i a b c t hcond
      obtain ⟨rfl, rfl, hc⟩ := hcond
      simp only [Option.some.injEq, Prod.mk.injEq] at h
      exact ⟨t, c, rfl, hc, h.1.symm, h.2.symm⟩
    · cases h
  · cases h

theorem parseRules_shape {l : List Char} {i : KInfo} {n : Nat}
    (h : parseRules l = some (i, n)) : ShapeSpec l i n := by
  unfold parseRules at h
  cases h0 : ruleRevTabLegacy l with
  | some p =>
    rw [h0] at h
    simp only [Option.orElse, Option.some.injEq] at h
    subst h
    obtain ⟨r, rfl, rfl, rfl⟩ := rule0_inv h0
    exact ShapeSpec.revTabLegacy r
  | none =>
  rw [h0] at h
  simp only [Option.orElse] at h
  cases h1 : ruleRevTabParam l with
  | some p =>
    rw [h1] at h
    simp only [Option.orElse, Option.some.injEq] at h
    subst h
    obtain ⟨ds, z, rfl, hne, hdig, rfl, rfl⟩ := rule1_inv h1
    exact ShapeSpec.revTabParam ds z hne hdig
  | none =>
  rw [h1] at h
  simp only [Option.orElse] at h
  cases h2 : ruleArrow l with
  | some p =>
    rw [h2] at h
    simp only [Option.orElse, Option.some.injEq] at h
    subst h
    obtain ⟨ds, z, sym, rfl, hne, hdig, hsym, rfl, rfl⟩ := rule2_inv h2
    exact ShapeSpec.arrow ds z sym hne hdig hsym
  | none =>
  rw [h2] at h
  simp only [Option.orElse] at h
  cases h3 : ruleCsiU l with
  | some p =>
    rw [h3] at h
    simp only [Option.orElse, Option.some.injEq] at h
    subst h
    rcases rule3_inv h3 with
      ⟨ds, z, t, rfl, hne, hdig, ht, hinfo, rfl⟩ |
      ⟨d1, d2, z, t, rfl, hne1, hne2, hdig1, hdig2, ht, hinfo, rfl⟩
    · exact ShapeSpec.csiUNoMods ds z t _ hne hdig ht hinfo
    · exact ShapeSpec.csiUMods d1 d2 z t _ hne1 hne2 hdig1 hdig2 ht hinfo
  | none =>
  rw [h3] at h
  simp only [Option.orElse] at h
  obtain ⟨r, c, rfl, hc, rfl, rfl⟩ := rule4_inv h
  exact ShapeSpec.legacy r c hc

-- ## Shape structure lemmas

theorem take_append_one (ds z : List Char) (t : Char) :
    (ds ++ t :: z).take (ds.length + 1) = ds ++ [t] := by
  induction ds with
  | nil => simp
  | cons d ds ih => simp [List.take_succ_cons, ih]

theorem shape_le {l : List Char} {i : KInfo} {n : Nat}
    (hs : ShapeSpec l i n) : 3 ≤ n ∧ n ≤ l.length := by
  cases hs <;> simp <;> omega

theorem shape_c3 {l : List Char} {i : KInfo} {n : Nat}
    (hs : ShapeSpec l i n) :
    ∃ c3 r, l = ESCc :: '[' :: c3 :: r ∧
      (c3.isDigit = true ∨
       c3 ∈ ['A', 'B', 'C', 'D', 'H', 'F', 'P', 'Q', 'R', 'S', 'Z']) := by
  cases hs with
  | revTabLegacy r => exact ⟨'Z', r, rfl, Or.inr (by decide)⟩
  | revTabParam ds z hne hdig =>
    exact ⟨'1', ';' :: (ds ++ 'Z' :: z), rfl, Or.inl (by decide)⟩
  | arrow ds z sym hne hdig hsym =>
    exact ⟨'1', ';' :: (ds ++ sym :: z), rfl, Or.inl (by decide)⟩
  | csiUNoMods ds z t i hne hdig ht hinfo =>
    obtain ⟨d0, ds', rfl⟩ := List.exists_cons_of_ne_nil hne
    exact ⟨d0, ds' ++ t :: z, by simp, Or.inl (hdig d0 (by simp))⟩
  | csiUMods d1 d2 z t i hne1 hne2 hdig1 hdig2 ht hinfo =>
    obtain ⟨d0, ds', rfl⟩ := List.exists_cons_of_ne_nil hne1
    exact ⟨d0, ds' ++ ';' :: (d2 ++ t :: z), by simp,
      Or.inl (hdig1 d0 (by simp))⟩
  | legacy r c hc =>
    refine ⟨c, r, rfl, Or.inr ?_⟩
    simp [legacyLetters] at hc
    rcases hc with rfl | rfl | rfl | rfl | rfl | rfl <;> decide

theorem take_shape (pre ds z : List Char) (t : Char) :
    (pre ++ (ds ++ t :: z)).take (pre.length + ds.length + 1) =
    pre ++ (ds ++ [t]) := by
  rw [show pre.length + ds.length + 1 = pre.length + (ds.length + 1) by
        omega]
  rw [List.take_append, take_append_one]

theorem shape_extend {l : List Char} {i : KInfo} {n : Nat}
    (hs : ShapeSpec l i n) (l2 : List Char) :
    ShapeSpec (l.take n ++ l2) i n := by
  cases hs with
  | revTabLegacy r =>
    exact ShapeSpec.revTabLegacy l2
  | revTabParam ds z hne hdig =>
    have htake : (ESCc :: '[' :: '1' :: ';' :: (ds ++ 'Z' :: z)).take
        (5 + ds.length) = ESCc :: '[' :: '1' :: ';' :: (ds ++ ['Z']) := by
      rw [show ESCc :: '[' :: '1' :: ';' :: (ds ++ 'Z' :: z) =
            [ESCc, '[', '1', ';'] ++ (ds ++ 'Z' :: z) from rfl,
          show 5 + ds.length =
            ([ESCc, '[', '1', ';'] : List Char).length + ds.length + 1 by
              simp only [List.length_cons, List.length_nil]; omega,
          take_shape]
      simp
    rw [htake]
    have hfin : (ESCc :: '[' :: '1' :: ';' :: (ds ++ ['Z'])) ++ l2 =
        ESCc :: '[' :: '1' :: ';' :: (ds ++ 'Z' :: l2) := by simp
    rw [hfin]
    exact ShapeSpec.revTabParam ds l2 hne hdig
  | arrow ds z sym hne hdig hsym =>
    have htake : (ESCc :: '[' :: '1' :: ';' :: (ds ++ sym :: z)).take
        (5 + ds.length) = ESCc :: '[' :: '1' :: ';' :: (ds ++ [sym]) := by
      rw [show ESCc :: '[' :: '1' :: ';' :: (ds ++ sym :: z) =
            [ESCc, '[', '1', ';'] ++ (ds ++ sym :: z) from rfl,
          show 5 + ds.length =
            ([ESCc, '[', '1', ';'] : List Char).length + ds.length + 1 by
              simp only [List.length_cons, List.length_nil]; omega,
          take_shape]
      simp
    rw [htake]
    have hfin : (ESCc :: '[' :: '1' :: ';' :: (ds ++ [sym])) ++ l2 =
        ESCc :: '[' :: '1' :: ';' :: (ds ++ sym :: l2) := by simp
    rw [hfin]
    exact ShapeSpec.arrow ds l2 sym hne hdig hsym
  | csiUNoMods ds z t i hne hdig ht hinfo =>
    have htake : (ESCc :: '[' :: (ds ++ t :: z)).take (3 + ds.length) =
        ESCc :: '[' :: (ds ++ [t]) := by
      rw [show ESCc :: '[' :: (ds ++ t :: z) =
            [ESCc, '['] ++ (ds ++ t :: z) from rfl,
          show 3 + ds.length =
            ([ESCc, '['] : List Char).length + ds.length + 1 by
              simp only [List.length_cons, List.length_nil]; omega,
          take_shape]
      simp
    rw [htake]
    have hfin : (ESCc :: '[' :: (ds ++ [t])) ++ l2 =
        ESCc :: '[' :: (ds ++ t :: l2) := by simp
    rw [hfin]
    exact ShapeSpec.csiUNoMods ds l2 t i hne hdig ht hinfo
  | csiUMods d1 d2 z t i hne1 hne2 hdig1 hdig2 ht hinfo =>
    have htake : (ESCc :: '[' :: (d1 ++ ';' :: (d2 ++ t :: z))).take
        (4 + d1.length + d2.length) =
        ESCc :: '[' :: (d1 ++ ';' :: (d2 ++ [t])) := by
      rw [show ESCc :: '[' :: (d1 ++ ';' :: (d2 ++ t :: z)) =
            ([ESCc, '['] ++ d1 ++ [';']) ++ (d2 ++ t :: z) by simp,
          show 4 + d1.length + d2.length =
            ([ESCc, '['] ++ d1 ++ [';'] : List Char).length + d2.length + 1 by
              simp; omega,
          take_shape]
      simp
    rw [htake]
    have hfin : (ESCc :: '[' :: (d1 ++ ';' :: (d2 ++ [t]))) ++ l2 =
        ESCc :: '[' :: (d1 ++ ';' :: (d2 ++ t :: l2)) := by simp
    rw [hfin]
    exact ShapeSpec.csiUMods d1 d2 l2 t i hne1 hne2 hdig1 hdig2 ht hinfo
  | legacy r c hc =>
    exact ShapeSpec.legacy l2 c hc

-- ## Rule evaluation on shapes

theorem rule0_eval (r : List Char) :
    ruleRevTabLegacy (ESCc :: '[' :: 'Z' :: r) =
      some ({ name := "tab", ctrl := false, meta := false, shift := true },
            3) := by
  simp [ruleRevTabLegacy]

theorem rule0_none (c : Char) (r : List Char) (hc : c ≠ 'Z') :
    ruleRevTabLegacy (ESCc :: '[' :: c :: r) = none := by
  simp [ruleRevTabLegacy, hc]

theorem rule1_eval (ds z : List Char) (hne : ds ≠ [])
    (hdig : ∀ c ∈ ds, c.isDigit = true) :
    ruleRevTabParam (ESCc :: '[' :: '1' :: ';' :: (ds ++ 'Z' :: z)) =
      some ({ name := "tab", ctrl := (decodeMods (natOfDigits ds)).2.2,
              meta := (decodeMods (natOfDigits ds)).2.1, shift := true },
            5 + ds.length) := by
  have hds : digSpan (ds ++ 'Z' :: z) = ds.length :=
    digSpan_exact z hdig (by decide)
  have hlen : ds.length ≠ 0 := by
    intro h
    exact hne (List.length_eq_zero.mp h)
  simp only [ruleRevTabParam, hds, List.drop_left, List.take_left]
  simp [hlen]
  omega

theorem rule1_none_c3 (c : Char) (r : List Char) (hc : c ≠ '1') :
    ruleRevTabParam (ESCc :: '[' :: c :: r) = none := by
  cases r <;> simp [ruleRevTabParam, hc]

theorem rule1_none_c4 (d : Char) (r : List Char) (hd : d ≠ ';') :
    ruleRevTabParam (ESCc :: '[' :: '1' :: d :: r) = none := by
  simp [ruleRevTabParam, hd]

theorem digit_split_unique {ds ds2 z z2 : List Char} {c c2 : Char}
    (hdig : ∀ x ∈ ds, x.isDigit = true)
    (hdig2 : ∀ x ∈ ds2, x.isDigit = true)
    (hcd : c.isDigit = false) (hcd2 : c2.isDigit = false)
    (h : ds ++ c :: z = ds2 ++ c2 :: z2) : ds = ds2 ∧ c = c2 ∧ z = z2 := by
  induction ds generalizing ds2 with
  | nil =>
    cases ds2 with
    | nil => simpa using h
    | cons d2 t2 =>
      simp only [List.nil_append, List.cons_append, List.cons.injEq] at h
      obtain ⟨rfl, -⟩ := h
      have := hdig2 c (by simp)
      rw [this] at hcd
      cases hcd
  | cons d t ih =>
    cases ds2 with
    | nil =>
      simp only [List.nil_append, List.cons_append, List.cons.injEq] at h
      obtain ⟨rfl, -⟩ := h
      have := hdig d (by simp)
      rw [this] at hcd2
      cases hcd2
    | cons d2 t2 =>
      simp only [List.cons_append, List.cons.injEq] at h
      obtain ⟨rfl, h⟩ := h
      obtain ⟨rfl, rfl, rfl⟩ := ih (fun x hx => hdig x (by simp [hx]))
        (fun x hx => hdig2 x (by simp [hx])) h
      exact ⟨rfl, rfl, rfl⟩

theorem rule1_none_term (ds z : List Char) (c : Char)
    (hdig : ∀ x ∈ ds, x.isDigit = true) (hcd : c.isDigit = false)
    (hcZ : c ≠ 'Z') :
    ruleRevTabParam (ESCc :: '[' :: '1' :: ';' :: (ds ++ c :: z)) = none := by
  cases hr : ruleRevTabParam (ESCc :: '[' :: '1' :: ';' :: (ds ++ c :: z)) with
  | none => rfl
  | some p =>
    exfalso
    obtain ⟨pi, pn⟩ := p
    obtain ⟨ds2, z2, heq, hne2, hdig2, -, -⟩ := rule1_inv hr
    simp only [List.cons.injEq, true_and] at heq
    obtain ⟨-, hc, -⟩ := digit_split_unique hdig hdig2 hcd (by decide) heq
    exact hcZ hc

theorem rule2_none_c3 (c : Char) (r : List Char) (hc : c ≠ '1') :
    ruleArrow (ESCc :: '[' :: c :: r) = none := by
  cases r <;> simp [ruleArrow, hc]

theorem rule2_none_c4 (d : Char) (r : List Char) (hd : d ≠ ';') :
    ruleArrow (ESCc :: '[' :: '1' :: d :: r) = none := by
  simp [ruleArrow, hd]

theorem rule2_none_term (ds z : List Char) (c : Char)
    (hdig : ∀ x ∈ ds, x.isDigit = true) (hcd : c.isDigit = false)
    (hcL : ¬ c ∈ arrowLetters) :
    ruleArrow (ESCc :: '[' :: '1' :: ';' :: (ds ++ c :: z)) = none := by
  have hds : digSpan (ds ++ c :: z) = ds.length := digSpan_exact z hdig hcd
  by_cases h0 : ds.length = 0
  · simp [ruleArrow, hds, h0]
  · simp only [ruleArrow, hds, List.drop_left]
    simp [h0, hcL]

theorem rule2_eval (ds z : List Char) (sym : Char) (hne : ds ≠ [])
    (hdig : ∀ c ∈ ds, c.isDigit = true) (hsym : sym ∈ arrowLetters) :
    ruleArrow (ESCc :: '[' :: '1' :: ';' :: (ds ++ sym :: z)) =
      some ({ name := arrowName sym,
              ctrl := (decodeMods (natOfDigits ds)).2.2,
              meta := (decodeMods (natOfDigits ds)).2.1,
              shift := (decodeMods (natOfDigits ds)).1 },
            5 + ds.length) := by
  have hsd : sym.isDigit = false := by
    fin_cases hsym <;> decide
  have hds : digSpan (ds ++ sym :: z) = ds.length := digSpan_exact z hdig hsd
  have hlen : ds.length ≠ 0 := by
    intro h
    exact hne (List.length_eq_zero.mp h)
  simp only [ruleArrow, hds, List.drop_left, List.take_left]
  simp [hlen, hsym]
  omega

theorem rule3_none_nodigit (c : Char) (r : List Char)
    (hc : c.isDigit = false) :
    ruleCsiU (ESCc :: '[' :: c :: r) = none := by
  have h0 : digSpan (c :: r) = 0 := by simp [digSpan, hc]
  simp [ruleCsiU, h0]

theorem rule3_eval_nomods (ds z : List Char) (t : Char) {i : KInfo}
    (hne : ds ≠ []) (hdig : ∀ c ∈ ds, c.isDigit = true)
    (ht : t = 'u' ∨ t = '~')
    (hinfo : csiUInfo (natOfDigits ds) KITTY_MODIFIER_BASE t = some i) :
    ruleCsiU (ESCc :: '[' :: (ds ++ t :: z)) = some (i, 3 + ds.length) := by
  have htd : t.isDigit = false := by rcases ht with rfl | rfl <;> decide
  have hds : digSpan (ds ++ t :: z) = ds.length := digSpan_exact z hdig htd
  have hlen : ds.length ≠ 0 := by
    intro h
    exact hne (List.length_eq_zero.mp h)
  have hts : t ≠ ';' := by rcases ht with rfl | rfl <;> decide
  simp only [ruleCsiU, hds, List.drop_left, List.take_left]
  simp [hlen, hts, ht, hinfo]
  omega

theorem rule3_eval_mods (d1 d2 z : List Char) (t : Char) {i : KInfo}
    (hne1 : d1 ≠ []) (hne2 : d2 ≠ [])
    (hdig1 : ∀ c ∈ d1, c.isDigit = true)
    (hdig2 : ∀ c ∈ d2, c.isDigit = true) (ht : t = 'u' ∨ t = '~')
    (hinfo : csiUInfo (natOfDigits d1) (natOfDigits d2) t = some i) :
    ruleCsiU (ESCc :: '[' :: (d1 ++ ';' :: (d2 ++ t :: z))) =
      some (i, 4 + d1.length + d2.length) := by
  have htd : t.isDigit = false := by rcases ht with rfl | rfl <;> decide
  have hd1 : digSpan (d1 ++ ';' :: (d2 ++ t :: z)) = d1.length :=
    digSpan_exact _ hdig1 (by decide)
  have hd2 : digSpan (d2 ++ t :: z) = d2.length := digSpan_exact z hdig2 htd
  have hlen1 : d1.length ≠ 0 := by
    intro h
    exact hne1 (List.length_eq_zero.mp h)
  have hlen2 : d2.length ≠ 0 := by
    intro h
    exact hne2 (List.length_eq_zero.mp h)
  simp only [ruleCsiU, hd1, List.drop_left, List.take_left, hd2]
  simp [hlen1, hlen2, ht, hinfo]
  omega

theorem rule4_eval (r : List Char) (c : Char) (hc : c ∈ legacyLetters) :
    ruleLegacy (ESCc :: '[' :: c :: r) =
      some ({ name := legacyName c, ctrl := false, meta := false,
              shift := false }, 3) := by
  simp [ruleLegacy, hc]


theorem orElse_none {α : Type} (f : Unit → Option α) :
    (none : Option α).orElse f = f () := rfl

theorem orElse_some {α : Type} (a : α) (f : Unit → Option α) :
    (some a).orElse f = some a := rfl

theorem shape_parseRules {l : List Char} {i : KInfo} {n : Nat}
    (hs : ShapeSpec l i n) : parseRules l = some (i, n) := by
  cases hs with
  | revTabLegacy r =>
    simp only [parseRules, rule0_eval r, orElse_some]
  | revTabParam ds z hne hdig =>
    have h0 := rule0_none '1' (';' :: (ds ++ 'Z' :: z)) (by decide)
    have h1 := rule1_eval ds z hne hdig
    simp only [parseRules, h0, h1, orElse_none, orElse_some]
  | arrow ds z sym hne hdig hsym =>
    have hsd : sym.isDigit = false := by fin_cases hsym <;> decide
    have hsZ : sym ≠ 'Z' := by fin_cases hsym <;> decide
    have h0 := rule0_none '1' (';' :: (ds ++ sym :: z)) (by decide)
    have h1 := rule1_none_term ds z sym hdig hsd hsZ
    have h2 := rule2_eval ds z sym hne hdig hsym
    simp only [parseRules, h0, h1, h2, orElse_none, orElse_some]
  | csiUNoMods ds z t i hne hdig ht hinfo =>
    obtain ⟨d0, ds2, rfl⟩ := List.exists_cons_of_ne_nil hne
    have hd0 : d0.isDigit = true := hdig d0 (by simp)
    have h0 := rule0_none d0 (ds2 ++ t :: z) (isDigit_ne hd0 (by decide))
    have hts : t ≠ ';' := by rcases ht with rfl | rfl <;> decide
    have h3 := rule3_eval_nomods (d0 :: ds2) z t hne hdig ht hinfo
    simp only [List.cons_append] at h3 ⊢
    by_cases h01 : d0 = '1'
    · subst h01
      cases ds2 with
      | nil =>
        have h1 := rule1_none_c4 t z hts
        have h2 := rule2_none_c4 t z hts
        simp only [List.nil_append, List.cons_append] at h0 h3 ⊢
        simp only [parseRules, h0, h1, h2, h3, orElse_none, orElse_some]
      | cons e ds3 =>
        have he : e.isDigit = true := hdig e (by simp)
        have h1 := rule1_none_c4 e (ds3 ++ t :: z) (isDigit_ne he (by decide))
        have h2 := rule2_none_c4 e (ds3 ++ t :: z) (isDigit_ne he (by decide))
        simp only [List.cons_append] at h0 h1 h2 h3 ⊢
        simp only [parseRules, h0, h1, h2, h3, orElse_none, orElse_some]
    · have h1 := rule1_none_c3 d0 (ds2 ++ t :: z) h01
      have h2 := rule2_none_c3 d0 (ds2 ++ t :: z) h01
      simp only [parseRules, h0, h1, h2, h3, orElse_none, orElse_some]
  | csiUMods d1 d2 z t i hne1 hne2 hdig1 hdig2 ht hinfo =>
    obtain ⟨e0, d1t, rfl⟩ := List.exists_cons_of_ne_nil hne1
    have he0 : e0.isDigit = true := hdig1 e0 (by simp)
    have h0 := rule0_none e0 (d1t ++ ';' :: (d2 ++ t :: z))
      (isDigit_ne he0 (by decide))
    have htd : t.isDigit = false := by rcases ht with rfl | rfl <;> decide
    have htZ : t ≠ 'Z' := by rcases ht with rfl | rfl <;> decide
    have htL : ¬ t ∈ arrowLetters := by rcases ht with rfl | rfl <;> decide
    have h3 := rule3_eval_mods (e0 :: d1t) d2 z t hne1 hne2 hdig1 hdig2
      ht hinfo
    simp only [List.cons_append] at h3 ⊢
    by_cases h01 : e0 = '1'
    · subst h01
      cases d1t with
      | nil =>
        have h1 := rule1_none_term d2 z t hdig2 htd htZ
        have h2 := rule2_none_term d2 z t hdig2 htd htL
        simp only [List.nil_append, List.cons_append] at h0 h3 ⊢
        simp only [parseRules, h0, h1, h2, h3, orElse_none, orElse_some]
      | cons e1 d1s =>
        have he1 : e1.isDigit = true := hdig1 e1 (by simp)
        have h1 := rule1_none_c4 e1 (d1s ++ ';' :: (d2 ++ t :: z))
          (isDigit_ne he1 (by decide))
        have h2 := rule2_none_c4 e1 (d1s ++ ';' :: (d2 ++ t :: z))
          (isDigit_ne he1 (by decide))
        simp only [List.cons_append] at h0 h1 h2 h3 ⊢
        simp only [parseRules, h0, h1, h2, h3, orElse_none, orElse_some]
    · have h1 := rule1_none_c3 e0 (d1t ++ ';' :: (d2 ++ t :: z)) h01
      have h2 := rule2_none_c3 e0 (d1t ++ ';' :: (d2 ++ t :: z)) h01
      simp only [parseRules, h0, h1, h2, h3, orElse_none, orElse_some]
  | legacy r c hc =>
    have h0 := rule0_none c r (by fin_cases hc <;> decide)
    have h1 := rule1_none_c3 c r (by fin_cases hc <;> decide)
    have h2 := rule2_none_c3 c r (by fin_cases hc <;> decide)
    have h3 := rule3_none_nodigit c r (by fin_cases hc <;> decide)
    have h4 := rule4_eval r c hc
    simp only [parseRules, h0, h1, h2, h3, h4, orElse_none, orElse_some]

theorem complete_marker_free {s : List Char} {i : KInfo} {n : Nat}
    (hs : ShapeSpec s i n) (hn : n = s.length) (w : List Char)
    {M : List Char}
    (hM : M = PASTE_MODE_PREFIX ∨ M = PASTE_MODE_SUFFIX) :
    listStartsWith (s ++ w) M = false := by
  obtain ⟨m, rfl, hm⟩ : ∃ m, M = [ESCc, '[', '2', '0', m, '~'] ∧
      (m = '0' ∨ m = '1') := by
    rcases hM with rfl | rfl
    · exact ⟨'0', rfl, Or.inl rfl⟩
    · exact ⟨'1', rfl, Or.inr rfl⟩
  simp only [listStartsWith, List.length_cons, List.length_nil,
    decide_eq_false_iff_not]
  intro hc
  cases hs with
  | revTabLegacy r =>
    simp at hc
  | revTabParam ds z hne hdig =>
    simp at hc
  | arrow ds z sym hne hdig hsym =>
    simp at hc
  | csiUNoMods ds z t i hne hdig ht hinfo =>
    simp only [List.length_cons, List.length_append] at hn
    have hz : z = [] := by
      have : z.length = 0 := by omega
      exact List.length_eq_zero.mp this
    subst hz
    have hts : t ≠ '0' ∧ t ≠ '1' ∧ t ≠ ';' := by
      rcases ht with rfl | rfl <;> exact ⟨by decide, by decide, by decide⟩
    match ds, hne with
    | [a], _ =>
      simp at hc
      exact absurd hc.2.1 hts.1
    | [a, b], _ =>
      simp at hc
      rcases hm with rfl | rfl
      · exact absurd hc.2.2.1 hts.1
      · exact absurd hc.2.2.1 hts.2.1
    | [a, b, c], _ =>
      simp at hc
      obtain ⟨rfl, rfl, rfl, rfl⟩ := hc
      rcases hm with rfl | rfl
      · rw [show csiUInfo (natOfDigits ['2', '0', '0'])
            KITTY_MODIFIER_BASE '~' = none from by decide] at hinfo
        cases hinfo
      · rw [show csiUInfo (natOfDigits ['2', '0', '1'])
            KITTY_MODIFIER_BASE '~' = none from by decide] at hinfo
        cases hinfo
    | a :: b :: c :: d :: ds4, _ =>
      simp at hc
      obtain ⟨-, -, -, hd⟩ := hc
      have := hdig d (by simp)
      rw [hd] at this
      cases this
  | csiUMods d1 d2 z t i hne1 hne2 hdig1 hdig2 ht hinfo =>
    simp only [List.length_cons, List.length_append] at hn
    have hz : z = [] := by
      have : z.length = 0 := by omega
      exact List.length_eq_zero.mp this
    subst hz
    match d1, hne1 with
    | [a], _ =>
      simp at hc
    | [a, b], _ =>
      rcases hm with rfl | rfl <;> simp at hc
    | [a, b, c], _ =>
      simp at hc
    | a :: b :: c :: d :: d1s, _ =>
      simp at hc
      obtain ⟨-, -, -, hd⟩ := hc
      have := hdig1 d (by simp)
      rw [hd] at this
      cases this
  | legacy r c hc2 =>
    fin_cases hc2 <;> simp at hc

theorem take_left_prime (l1 l2 : List Char) (n : Nat) (h : l1.length = n) :
    (l1 ++ l2).take n = l1 := by
  rw [← h, List.take_left]

theorem parse_shape {l : List Char} {k : Key} {n : Nat}
    (h : parseKittyPrefix l = some (k, n)) : ∃ i, ShapeSpec l i n := by
  unfold parseKittyPrefix at h
  cases hr : parseRules l with
  | none => rw [hr] at h; cases h
  | some p =>
    obtain ⟨pi, pn⟩ := p
    rw [hr] at h
    simp only [Option.map_some', Option.some.injEq, Prod.mk.injEq] at h
    obtain ⟨-, rfl⟩ := h
    exact ⟨pi, parseRules_shape hr⟩

theorem parse_prefix_props {l : List Char} {k : Key} {n : Nat}
    (h : parseKittyPrefix l = some (k, n)) :
    n ≤ l.length ∧ k.sequence = l.take n ∧
    ∀ l2 : List Char, parseKittyPrefix (l.take n ++ l2) = some (k, n) := by
  unfold parseKittyPrefix at h
  cases hr : parseRules l with
  | none => rw [hr] at h; cases h
  | some p =>
    obtain ⟨pi, pn⟩ := p
    rw [hr] at h
    simp only [Option.map_some', Option.some.injEq, Prod.mk.injEq] at h
    obtain ⟨hk, rfl⟩ := h
    have hshape := parseRules_shape hr
    have hle := (shape_le hshape).2
    refine ⟨hle, by rw [← hk], ?_⟩
    intro l2
    have hext := shape_extend hshape l2
    have hpr2 := shape_parseRules hext
    unfold parseKittyPrefix
    rw [hpr2]
    simp only [Option.map_some', Option.some.injEq, Prod.mk.injEq]
    refine ⟨?_, trivial⟩
    rw [← hk]
    rw [take_left_prime (l.take pn) l2 pn (by rw [List.length_take]; omega)]

theorem shape_focus_free {s : List Char} {i : KInfo} {n : Nat}
    (hs : ShapeSpec s i n) (w : List Char) :
    listStartsWith (s ++ w) FOCUS_IN = false ∧
    listStartsWith (s ++ w) FOCUS_OUT = false := by
  obtain ⟨c3, r, rfl, hc3⟩ := shape_c3 hs
  constructor <;>
  · simp only [listStartsWith, FOCUS_IN, FOCUS_OUT, List.length_cons,
      List.length_nil, decide_eq_false_iff_not]
    intro hc
    simp at hc
    subst hc
    rcases hc3 with hd | hm
    · exact absurd hd (by decide)
    · exact absurd hm (by decide)

theorem shape_esc_head {s : List Char} {i : KInfo} {n : Nat}
    (hs : ShapeSpec s i n) (w : List Char) :
    listStartsWith (s ++ w) [ESCc] = true := by
  obtain ⟨c3, r, rfl, -⟩ := shape_c3 hs
  simp [listStartsWith]

theorem concat_ne_kitty_ctrl_c {s1 s2 : List Char} {i1 i2 : KInfo}
    {n1 n2 : Nat} (h1 : ShapeSpec s1 i1 n1) (h2 : ShapeSpec s2 i2 n2)
    (hc1 : n1 = s1.length) :
    s1 ++ s2 ≠ ESCc :: KITTY_CTRL_C := by
  intro he
  have hl2 := shape_le h2
  have hlen : s1.length + s2.length = 7 := by
    have := congrArg List.length he
    simpa [KITTY_CTRL_C] using this
  obtain ⟨c3, r, rfl, -⟩ := shape_c3 h1
  obtain ⟨c3b, rb, rfl, -⟩ := shape_c3 h2
  have hr : r.length ≤ 1 := by
    simp only [List.length_cons] at hlen hl2
    omega
  match r, hr with
  | [], _ =>
    simp [KITTY_CTRL_C, ESCc] at he
  | [x], _ =>
    simp [KITTY_CTRL_C, ESCc] at he
  | x :: y :: t, hr2 =>
    simp at hr2

-- ## Claim theorems

/-- C1 (counterexample): feeding the single chunk `ESC [ x ESC [ A` (no
timer left pending, nothing for teardown to flush) broadcasts only the
parsed `ESC [ A`; the unrecognized prefix `ESC [ x` is dropped without
emission, so the concatenated broadcast sequences do not reconstruct the
input. -/
theorem c1_counterexample :
    (runK true initState [Notif.key (rawEvent c1cexSeq)]).1 = initState ∧
    ((broadcasts ((runK true initState [Notif.key (rawEvent c1cexSeq)]).2 ++
        teardownK (runK true initState [Notif.key (rawEvent c1cexSeq)]).1)).map
      Key.sequence).join ≠ c1cexSeq := by
  decide

/-- C2 (counterexample): with the escape buffer holding the pending
`ESC [`, a Ctrl+C notification broadcasts only the Ctrl+C event itself —
the pending buffer is discarded without being emitted, contradicting the
claim that it is flushed verbatim first. -/
theorem c2_counterexample :
    c2state.kittyBuf ≠ [] ∧
    broadcasts (handleKeypress true c2state ctrlCKey).2 = [ctrlCKey] ∧
    (handleKeypress true c2state ctrlCKey).1.kittyBuf = [] := by
  decide

/-- C2 (amended): processing a Ctrl+C key notification clears the pending
escape buffer and cancels its timeout without emitting the buffer, and
then broadcasts the Ctrl+C event itself as the only broadcast of the
step. -/
theorem c2_ctrlc_discards (s : KState) (hp : s.isPaste = false)
    (hd : s.dragging = false) (hw : s.waitingBackslash = false) :
    handleKeypress true s ctrlCKey =
      ({ s with kittyBuf := [], kittyTimeout := false },
       [Item.disc s.kittyBuf, Item.emit ctrlCKey]) := by
  simp [handleKeypress, lateStage, ctrlCKey, hp, hd, hw, FOCUS_IN, FOCUS_OUT,
        ESCc, SINGLE_QUOTE, DOUBLE_QUOTE, BACKSLASH, altMap, altChar,
        KITTY_CTRL_C]

/-- C2 witness: the amended statement at the concrete pending-buffer
state. -/
theorem c2_ctrlc_discards_witness :
    handleKeypress true c2state ctrlCKey =
      ({ c2state with kittyBuf := [], kittyTimeout := false },
       [Item.disc c2state.kittyBuf, Item.emit ctrlCKey]) :=
  c2_ctrlc_discards c2state (by decide) (by decide) (by decide)

/-- C4 (counterexample): the buffer `ESC [ 2 7 ~` has terminator `~`, yet
parses through the fixed CSI-u code table to the name "escape" — the
table is not restricted to terminator `u`. -/
theorem c4_counterexample :
    (parseKittyPrefix [ESCc, '[', '2', '7', '~']).map
      (fun p => (p.1.name, p.2)) = some ("escape", 5) := by
  decide

/-- C4 (amended): with terminator `~`, codes 1–6 map to
home/insert/delete/end/pageup/pagedown; the fixed code table applies to
both terminators (for `~` whenever the code is not named by the 1–6
switch), not only to `u`; and the ctrl/alt lowercase-letter rule also
applies under both terminators. -/
theorem c4_csiu_tables :
    (∀ mods code, 1 ≤ code → code ≤ 6 →
      (csiUInfo code mods '~').map KInfo.name = tildeName code) ∧
    (∀ mods code nm t, kittyCodeName code = some nm → tildeName code = none →
      t = 'u' ∨ t = '~' →
      (csiUInfo code mods t).map KInfo.name = some nm) ∧
    (∀ mods code t, t = 'u' ∨ t = '~' → 97 ≤ code → code ≤ 122 →
      (decodeMods mods).2.2 = true ∨ (decodeMods mods).2.1 = true →
      (csiUInfo code mods t).map KInfo.name =
        some (String.mk [Char.ofNat code])) := by
  refine ⟨?_, ?_, ?_⟩
  · intro mods code h1 h2
    interval_cases code <;> simp [csiUInfo, tildeName]
  · intro mods code nm t hk ht htu
    rcases htu with rfl | rfl
    · simp [csiUInfo, hk]
    · simp [csiUInfo, hk, ht]
  · intro mods code t htu h97 h122 hca
    have h1 : tildeName code = none := by
      unfold tildeName
      repeat rw [if_neg (by omega)]
    have h2 : kittyCodeName code = none := by
      unfold kittyCodeName CHAR_CODE_ESC KITTY_KEYCODE_TAB
        KITTY_KEYCODE_BACKSPACE KITTY_KEYCODE_ENTER KITTY_KEYCODE_NUMPAD_ENTER
      repeat rw [if_neg (by omega)]
    rcases htu with rfl | rfl <;>
      rcases hca with h | h <;>
        simp [csiUInfo, h1, h2, h, h97, h122]

/-- C4 witness: concrete instances of the three amended parts —
`ESC[3;5~` names "delete", the table code for escape applies under both
terminators, and `ESC[97;5u`-style data names the letter "a". -/
theorem c4_csiu_tables_witness :
    (csiUInfo 3 5 '~').map KInfo.name = tildeName 3 ∧
    (csiUInfo CHAR_CODE_ESC 1 '~').map KInfo.name = some "escape" ∧
    (csiUInfo 97 5 'u').map KInfo.name = some (String.mk [Char.ofNat 97]) :=
  ⟨c4_csiu_tables.1 5 3 (by decide) (by decide),
   c4_csiu_tables.2.1 1 CHAR_CODE_ESC "escape" '~' (by decide) (by decide)
     (Or.inr rfl),
   c4_csiu_tables.2.2 5 97 'u' (Or.inl rfl) (by decide) (by decide)
     (Or.inl (by decide))⟩

/-- C7: feeding the raw chunks `ESC[200~`, `hello`, `ESC[201~` to the
dispatcher broadcasts exactly one event — empty name, `paste = true`,
sequence `hello` — and returns to the initial state (paste payload
buffer empty, escape buffer untouched by the payload). -/
theorem c7_paste_scenario :
    broadcasts (feedRawChunks true perCharTok initState
      [PASTE_MODE_PREFIX, "hello".data, PASTE_MODE_SUFFIX]).2 =
        [pasteEvent "hello".data] ∧
    (feedRawChunks true perCharTok initState
      [PASTE_MODE_PREFIX, "hello".data, PASTE_MODE_SUFFIX]).1 = initState := by
  decide

/-- C8 (counterexample): while the backslash wait window is open, a
single-quote key (a non-Return key) is captured by the drag stage: the
step broadcasts nothing at all — the backslash is not emitted first, and
it remains pending. -/
theorem c8_counterexample :
    c8state.waitingBackslash = true ∧
    broadcasts (handleKeypress true c8state (rawEvent [SINGLE_QUOTE])).2 = [] ∧
    (handleKeypress true c8state (rawEvent [SINGLE_QUOTE])).1.waitingBackslash
      = true ∧
    (handleKeypress true c8state (rawEvent [SINGLE_QUOTE])).1.dragging
      = true := by
  decide

/-- C9 (counterexample): after an incomplete kitty fragment and then a
quote key, the reachable state `c9state` has the escape-sequence buffer
and the drag buffer active simultaneously — the quote did start a drag
accumulation while the escape buffer was non-empty. -/
theorem c9_counterexample :
    c9state.kittyBuf ≠ [] ∧ c9state.dragging = true ∧
    c9state.dragBuf ≠ [] := by
  decide

theorem altMap_esc (r : List Char) : altMap (ESCc :: r) = none := by
  cases r <;> simp [altMap, altChar, ESCc]

theorem excludedSeq_spread {l : List Char} (h : excludedSeq l = false) :
    listStartsWith l PASTE_MODE_PREFIX = false ∧
    listStartsWith l PASTE_MODE_SUFFIX = false ∧
    listStartsWith l FOCUS_IN = false ∧
    listStartsWith l FOCUS_OUT = false := by
  unfold excludedSeq at h
  simp only [Bool.or_eq_false_iff] at h
  exact ⟨h.1.1.1, h.1.1.2, h.1.2, h.2⟩

theorem ne_of_not_startsWith {l p : List Char}
    (h : listStartsWith l p = false) : l ≠ p := by
  intro he
  subst he
  simp [listStartsWith] at h

/-- C6: a fragment `ESC :: rest` that is a valid-but-incomplete prefix
(no parse, no later `ESC`, `couldBeKittySequence`, within the length
bound, not a framing or Ctrl+C sequence) broadcasts nothing when
processed — whatever timer was pending beforehand is cancelled and
replaced by the freshly scheduled one — and the buffered characters are
emitted verbatim as exactly one event only when that timeout fires; a
second firing emits nothing. -/
theorem c6_timeout (rest : List Char) (tPrev : Bool)
    (h2 : excludedSeq (ESCc :: rest) = false)
    (h3 : parseKittyPrefix (ESCc :: rest) = none)
    (h4 : nextEscIdx (ESCc :: rest) = none)
    (h5 : couldBeKittySequence (ESCc :: rest) = true)
    (h6 : (ESCc :: rest).length ≤ MAX_KITTY_SEQUENCE_LENGTH)
    (h7 : rest ≠ KITTY_CTRL_C) :
    handleKeypress true { initState with kittyTimeout := tPrev }
        (rawEvent (ESCc :: rest)) =
      ({ initState with kittyBuf := ESCc :: rest, kittyTimeout := true },
       []) ∧
    fireKittyTimeout
        { initState with kittyBuf := ESCc :: rest, kittyTimeout := true } =
      (initState, [Item.emit (rawEvent (ESCc :: rest))]) ∧
    fireKittyTimeout initState = (initState, []) := by
  obtain ⟨hs1, hs2, hs3, hs4⟩ := excludedSeq_spread h2
  have hne1 := ne_of_not_startsWith hs3
  have hne2 := ne_of_not_startsWith hs4
  have hlen : ¬ (MAX_KITTY_SEQUENCE_LENGTH < rest.length + 1) := by
    simp only [List.length_cons] at h6
    omega
  have hqs : (ESCc :: rest) ≠ [SINGLE_QUOTE] := by
    intro he
    injection he with hh _
    exact absurd hh (by decide)
  have hqd : (ESCc :: rest) ≠ [DOUBLE_QUOTE] := by
    intro he
    injection he with hh _
    exact absurd hh (by decide)
  have hqb : (ESCc :: rest) ≠ [BACKSLASH] := by
    intro he
    injection he with hh _
    exact absurd hh (by decide)
  refine ⟨?_, ?_, ?_⟩
  · simp [handleKeypress, lateStage, rawEvent, hne1, hne2, initState,
          nullKey, hqs, hqd, hqb, altMap_esc, h7, listStartsWith, h2,
          kittyLoop, kittyLoopF, h3, h4, h5, hlen]
  · simp [fireKittyTimeout, initState, nullKey]
  · simp [fireKittyTimeout, initState]

/-- C6 witness: the concrete fragment `ESC [ 1` with a previously
pending timer. -/
theorem c6_timeout_witness :
    handleKeypress true { initState with kittyTimeout := true }
        (rawEvent (ESCc :: ['[', '1'])) =
      ({ initState with kittyBuf := ESCc :: ['[', '1'], kittyTimeout := true },
       []) ∧
    fireKittyTimeout
        { initState with kittyBuf := ESCc :: ['[', '1'], kittyTimeout := true }
      = (initState, [Item.emit (rawEvent (ESCc :: ['[', '1']))]) ∧
    fireKittyTimeout initState = (initState, []) :=
  c6_timeout ['[', '1'] true (by decide) (by decide) (by decide) (by decide)
    (by decide) (by decide)

/-- C8 (amended): (a) with the wait window open, a Return notification
(sequence CR) produces exactly one broadcast, the synthetic shift+return
with sequence CR, and closes the window; (b) the window elapsing
broadcasts the captured backslash key verbatim as one event; (c) a
non-Return key that reaches the backslash stage (not a framing sequence,
not consumed by the paste, drag or alt-remap stages, not another lone
backslash) is preceded by the verbatim backslash broadcast and is then
processed exactly as it would be with the window closed. -/
theorem c8_backslash :
    (∀ (s : KState) (k : Key), s.waitingBackslash = true →
      s.isPaste = false → s.dragging = false → k.name = "return" →
      k.sequence = ['\r'] →
      handleKeypress true s k =
        ({ s with waitingBackslash := false, backslashTimer := false },
         [Item.emit { k with shift := true, sequence := ['\r'] },
          Item.disc s.backslashKey.sequence])) ∧
    (∀ s : KState, s.backslashTimer = true →
      fireBackslashTimeout s =
        ({ s with waitingBackslash := false, backslashTimer := false },
         [Item.emit s.backslashKey])) ∧
    (∀ (s : KState) (k : Key), s.waitingBackslash = true →
      s.isPaste = false → s.dragging = false → k.name ≠ "return" →
      k.name ≠ "paste-start" → k.name ≠ "paste-end" →
      k.sequence ≠ FOCUS_IN → k.sequence ≠ FOCUS_OUT →
      k.sequence ≠ [SINGLE_QUOTE] → k.sequence ≠ [DOUBLE_QUOTE] →
      (altMap k.sequence).isSome = false → k.sequence ≠ [BACKSLASH] →
      handleKeypress true s k =
        ((handleKeypress true
            { s with waitingBackslash := false, backslashTimer := false }
            k).1,
         Item.emit (rawEvent [BACKSLASH]) ::
           (handleKeypress true
             { s with waitingBackslash := false, backslashTimer := false }
             k).2)) := by
  refine ⟨?_, ?_, ?_⟩
  · intro s k hw hp hd hn hs
    simp [handleKeypress, hw, hp, hd, hn, hs, FOCUS_IN, FOCUS_OUT, ESCc,
          SINGLE_QUOTE, DOUBLE_QUOTE, altMap, altChar]
  · intro s ht
    simp [fireBackslashTimeout, ht]
  · intro s k hw hp hd hn hn1 hn2 hq1 hq2 hq3 hq4 hm hq5
    simp [handleKeypress, hw, hp, hd, hn, hn1, hn2, hq1, hq2, hq3, hq4,
          hm, hq5]

/-- C8 witness: the three amended scenarios at the concrete waiting
state — Return fuses to shift+return, the window elapsing emits the
captured backslash, and a Ctrl+C interrupt is preceded by the verbatim
backslash. -/
theorem c8_backslash_witness :
    handleKeypress true c8state returnKey =
      ({ c8state with waitingBackslash := false, backslashTimer := false },
       [Item.emit { returnKey with shift := true, sequence := ['\r'] }, Item.disc c8state.backslashKey.sequence]) ∧
    fireBackslashTimeout c8state =
      ({ c8state with waitingBackslash := false, backslashTimer := false },
       [Item.emit c8state.backslashKey]) ∧
    handleKeypress true c8state ctrlCKey =
      ((handleKeypress true { c8state with waitingBackslash := false, backslashTimer := false } ctrlCKey).1,
       Item.emit (rawEvent [BACKSLASH]) ::
         (handleKeypress true { c8state with waitingBackslash := false, backslashTimer := false } ctrlCKey).2) :=
  ⟨c8_backslash.1 c8state returnKey (by decide) (by decide) (by decide)
     rfl rfl,
   c8_backslash.2.1 c8state (by decide),
   c8_backslash.2.2 c8state ctrlCKey (by decide) (by decide) (by decide)
     (by decide) (by decide) (by decide) (by decide) (by decide) (by decide)
     (by decide) (by decide) (by decide)⟩

/-- Case analysis principle for `lateStage`, giving each branch with its
path conditions and exact result. -/
theorem lateStage_elim (e : Bool) (s : KState) (k : Key)
    (P : KState × List Item → Prop)
    (harrow : (k.name = "up" ∨ k.name = "down" ∨ k.name = "left" ∨
       k.name = "right") → P (s, [Item.emit k]))
    (hctrlc : ¬(k.name = "up" ∨ k.name = "down" ∨ k.name = "left" ∨
       k.name = "right") →
      ((k.ctrl ∧ k.name = "c") ∨ k.sequence = ESCc :: KITTY_CTRL_C) →
      P ({ s with kittyBuf := [], kittyTimeout := false },
         [Item.disc s.kittyBuf,
          Item.emit (if k.sequence = ESCc :: KITTY_CTRL_C then { name := "c", ctrl := true, meta := false, shift := false, paste := false, sequence := k.sequence, kittyProtocol := true } else k)]))
    (hkitty : ¬(k.name = "up" ∨ k.name = "down" ∨ k.name = "left" ∨
       k.name = "right") →
      ¬((k.ctrl ∧ k.name = "c") ∨ k.sequence = ESCc :: KITTY_CTRL_C) →
      e = true →
      (s.kittyBuf ≠ [] ∨
        (listStartsWith k.sequence [ESCc] ∧ ¬excludedSeq k.sequence)) →
      P (if (kittyLoop (s.kittyBuf ++ k.sequence)).parsedAny ∨
            (kittyLoop (s.kittyBuf ++ k.sequence)).rem ≠ [] then
           ({ s with kittyBuf := (kittyLoop (s.kittyBuf ++ k.sequence)).rem, kittyTimeout := (kittyLoop (s.kittyBuf ++ k.sequence)).timeoutSet },
            (kittyLoop (s.kittyBuf ++ k.sequence)).items)
         else
           finalStage
             { s with kittyBuf := (kittyLoop (s.kittyBuf ++ k.sequence)).rem, kittyTimeout := (kittyLoop (s.kittyBuf ++ k.sequence)).timeoutSet }
             k (kittyLoop (s.kittyBuf ++ k.sequence)).items))
    (hnokitty : ¬(k.name = "up" ∨ k.name = "down" ∨ k.name = "left" ∨
       k.name = "right") →
      ¬((k.ctrl ∧ k.name = "c") ∨ k.sequence = ESCc :: KITTY_CTRL_C) →
      e = true →
      ¬(s.kittyBuf ≠ [] ∨
        (listStartsWith k.sequence [ESCc] ∧ ¬excludedSeq k.sequence)) →
      P (finalStage { s with kittyTimeout := false } k []))
    (hdisabled : ¬(k.name = "up" ∨ k.name = "down" ∨ k.name = "left" ∨
       k.name = "right") →
      ¬((k.ctrl ∧ k.name = "c") ∨ k.sequence = ESCc :: KITTY_CTRL_C) →
      e = false → P (finalStage s k [])) :
    P (lateStage e s k) := by
  by_cases h1 : (k.name = "up" ∨ k.name = "down" ∨ k.name = "left" ∨
      k.name = "right")
  · unfold lateStage
    rw [if_pos h1]
    exact harrow h1
  by_cases h2 : ((k.ctrl ∧ k.name = "c") ∨ k.sequence = ESCc :: KITTY_CTRL_C)
  · unfold lateStage
    rw [if_neg h1, if_pos h2]
    exact hctrlc h1 h2
  cases e with
  | false =>
    unfold lateStage
    rw [if_neg h1, if_neg h2, if_neg (by simp)]
    exact hdisabled h1 h2 rfl
  | true =>
    by_cases h3 : (s.kittyBuf ≠ [] ∨
        (listStartsWith k.sequence [ESCc] ∧ ¬excludedSeq k.sequence))
    · unfold lateStage
      rw [if_neg h1, if_neg h2, if_pos (by simp), if_pos h3]
      exact hkitty h1 h2 rfl h3
    · unfold lateStage
      rw [if_neg h1, if_neg h2, if_pos (by simp), if_neg h3]
      exact hnokitty h1 h2 rfl h3

/-- Case analysis principle for `handleKeypress`, giving each pipeline
stage with its path conditions and exact result. -/
theorem handleKeypress_elim (e : Bool) (s : KState) (k : Key)
    (P : KState × List Item → Prop)
    (hfocus : (k.sequence = FOCUS_IN ∨ k.sequence = FOCUS_OUT) →
      P ((flushKitty s).1, (flushKitty s).2 ++ [Item.disc k.sequence]))
    (hpstart : ¬(k.sequence = FOCUS_IN ∨ k.sequence = FOCUS_OUT) →
      k.name = "paste-start" →
      P ({ (flushKitty s).1 with isPaste := true }, (flushKitty s).2 ++ [Item.disc k.sequence]))
    (hpend : ¬(k.sequence = FOCUS_IN ∨ k.sequence = FOCUS_OUT) →
      k.name ≠ "paste-start" → k.name = "paste-end" →
      P ({ s with isPaste := false, pasteBuffer := [] },
         [Item.emit (pasteEvent s.pasteBuffer), Item.disc k.sequence]))
    (hpacc : ¬(k.sequence = FOCUS_IN ∨ k.sequence = FOCUS_OUT) →
      k.name ≠ "paste-start" → k.name ≠ "paste-end" → s.isPaste = true →
      P ({ s with pasteBuffer := s.pasteBuffer ++ k.sequence }, []))
    (hdrag : ¬(k.sequence = FOCUS_IN ∨ k.sequence = FOCUS_OUT) →
      k.name ≠ "paste-start" → k.name ≠ "paste-end" → s.isPaste = false →
      (k.sequence = [SINGLE_QUOTE] ∨ k.sequence = [DOUBLE_QUOTE] ∨
        s.dragging) →
      P ({ s with dragging := true, dragBuf := s.dragBuf ++ k.sequence, dragTimer := true, dragLastKey := k }, []))
    (halt : ¬(k.sequence = FOCUS_IN ∨ k.sequence = FOCUS_OUT) →
      k.name ≠ "paste-start" → k.name ≠ "paste-end" → s.isPaste = false →
      ¬(k.sequence = [SINGLE_QUOTE] ∨ k.sequence = [DOUBLE_QUOTE] ∨
        s.dragging) →
      ∀ (hm : (altMap k.sequence).isSome ∧ ¬k.meta),
      P (s, [Item.emit { name := String.mk [(altMap k.sequence).get hm.1], ctrl := false, meta := true, shift := false, paste := s.isPaste, sequence := k.sequence }]))
    (hbret : ¬(k.sequence = FOCUS_IN ∨ k.sequence = FOCUS_OUT) →
      k.name ≠ "paste-start" → k.name ≠ "paste-end" → s.isPaste = false →
      ¬(k.sequence = [SINGLE_QUOTE] ∨ k.sequence = [DOUBLE_QUOTE] ∨
        s.dragging) →
      ¬((altMap k.sequence).isSome ∧ ¬k.meta) →
      (k.name = "return" ∧ s.waitingBackslash) →
      P ({ s with waitingBackslash := false, backslashTimer := false },
         [Item.emit { k with shift := true, sequence := ['\r'] }, Item.disc s.backslashKey.sequence]))
    (hbset : ¬(k.sequence = FOCUS_IN ∨ k.sequence = FOCUS_OUT) →
      k.name ≠ "paste-start" → k.name ≠ "paste-end" → s.isPaste = false →
      ¬(k.sequence = [SINGLE_QUOTE] ∨ k.sequence = [DOUBLE_QUOTE] ∨
        s.dragging) →
      ¬((altMap k.sequence).isSome ∧ ¬k.meta) →
      ¬(k.name = "return" ∧ s.waitingBackslash) →
      (k.sequence = [BACKSLASH] ∧ k.name = "") →
      P ({ s with waitingBackslash := true, backslashTimer := true, backslashKey := k }, []))
    (hbint : ¬(k.sequence = FOCUS_IN ∨ k.sequence = FOCUS_OUT) →
      k.name ≠ "paste-start" → k.name ≠ "paste-end" → s.isPaste = false →
      ¬(k.sequence = [SINGLE_QUOTE] ∨ k.sequence = [DOUBLE_QUOTE] ∨
        s.dragging) →
      ¬((altMap k.sequence).isSome ∧ ¬k.meta) →
      ¬(k.name = "return" ∧ s.waitingBackslash) →
      ¬(k.sequence = [BACKSLASH] ∧ k.name = "") →
      (s.waitingBackslash ∧ k.name ≠ "return") →
      P ((lateStage e { s with waitingBackslash := false, backslashTimer := false } k).1,
         Item.emit (rawEvent [BACKSLASH]) ::
           (lateStage e { s with waitingBackslash := false, backslashTimer := false } k).2))
    (hlate : ¬(k.sequence = FOCUS_IN ∨ k.sequence = FOCUS_OUT) →
      k.name ≠ "paste-start" → k.name ≠ "paste-end" → s.isPaste = false →
      ¬(k.sequence = [SINGLE_QUOTE] ∨ k.sequence = [DOUBLE_QUOTE] ∨
        s.dragging) →
      ¬((altMap k.sequence).isSome ∧ ¬k.meta) →
      ¬(k.name = "return" ∧ s.waitingBackslash) →
      ¬(k.sequence = [BACKSLASH] ∧ k.name = "") →
      ¬(s.waitingBackslash ∧ k.name ≠ "return") →
      P (lateStage e s k)) :
    P (handleKeypress e s k) := by
  by_cases h1 : (k.sequence = FOCUS_IN ∨ k.sequence = FOCUS_OUT)
  · unfold handleKeypress
    rw [if_pos h1]
    exact hfocus h1
  by_cases h2 : k.name = "paste-start"
  · unfold handleKeypress
    rw [if_neg h1, if_pos h2]
    exact hpstart h1 h2
  by_cases h3 : k.name = "paste-end"
  · unfold handleKeypress
    rw [if_neg h1, if_neg h2, if_pos h3]
    exact hpend h1 h2 h3
  by_cases h4 : s.isPaste
  · unfold handleKeypress
    rw [if_neg h1, if_neg h2, if_neg h3, if_pos h4]
    exact hpacc h1 h2 h3 h4
  by_cases h5 : (k.sequence = [SINGLE_QUOTE] ∨ k.sequence = [DOUBLE_QUOTE] ∨
      s.dragging)
  · unfold handleKeypress
    rw [if_neg h1, if_neg h2, if_neg h3, if_neg h4, if_pos h5]
    exact hdrag h1 h2 h3 (by simpa using h4) h5
  by_cases h6 : ((altMap k.sequence).isSome ∧ ¬k.meta)
  · unfold handleKeypress
    rw [if_neg h1, if_neg h2, if_neg h3, if_neg h4, if_neg h5, dif_pos h6]
    exact halt h1 h2 h3 (by simpa using h4) h5 h6
  by_cases h7 : (k.name = "return" ∧ s.waitingBackslash)
  · unfold handleKeypress
    rw [if_neg h1, if_neg h2, if_neg h3, if_neg h4, if_neg h5, dif_neg h6,
        if_pos h7]
    exact hbret h1 h2 h3 (by simpa using h4) h5 h6 h7
  by_cases h8 : (k.sequence = [BACKSLASH] ∧ k.name = "")
  · unfold handleKeypress
    rw [if_neg h1, if_neg h2, if_neg h3, if_neg h4, if_neg h5, dif_neg h6,
        if_neg h7, if_pos h8]
    exact hbset h1 h2 h3 (by simpa using h4) h5 h6 h7 h8
  by_cases h9 : (s.waitingBackslash ∧ k.name ≠ "return")
  · unfold handleKeypress
    rw [if_neg h1, if_neg h2, if_neg h3, if_neg h4, if_neg h5, dif_neg h6,
        if_neg h7, if_neg h8, if_pos h9]
    exact hbint h1 h2 h3 (by simpa using h4) h5 h6 h7 h8 h9
  · unfold handleKeypress
    rw [if_neg h1, if_neg h2, if_neg h3, if_neg h4, if_neg h5, dif_neg h6,
        if_neg h7, if_neg h8, if_neg h9]
    exact hlate h1 h2 h3 (by simpa using h4) h5 h6 h7 h8 h9

theorem finalStage_isPaste (s : KState) (k : Key) (pre : List Item) :
    (finalStage s k pre).1 = s := by
  unfold finalStage
  split <;> rfl

theorem lateStage_isPaste (e : Bool) (s : KState) (k : Key) :
    (lateStage e s k).1.isPaste = s.isPaste := by
  refine lateStage_elim e s k (fun r => r.1.isPaste = s.isPaste) ?_ ?_ ?_ ?_ ?_
  · intro _
    rfl
  · intro _ _
    rfl
  · intro _ _ _ _
    split
    · rfl
    · rw [finalStage_isPaste]
  · intro _ _ _ _
    rw [finalStage_isPaste]
  · intro _ _ _
    rw [finalStage_isPaste]

theorem step_paste_kitty (e : Bool) (s : KState) (n : Notif)
    (h : s.isPaste = true → s.kittyBuf = []) :
    (stepNotif e s n).1.isPaste = true → (stepNotif e s n).1.kittyBuf = [] := by
  cases n with
  | key k =>
    simp only [stepNotif]
    refine handleKeypress_elim e s k
      (fun r => r.1.isPaste = true → r.1.kittyBuf = [])
      ?_ ?_ ?_ ?_ ?_ ?_ ?_ ?_ ?_ ?_
    · intro _
      simp [flushKitty]
    · intro _ _
      simp [flushKitty]
    · intro _ _ _
      simp
    · intro _ _ _ _
      exact h
    · intro _ _ _ hp _
      simp [hp]
    · intro _ _ _ hp _ _
      simp [hp]
    · intro _ _ _ hp _ _ _
      simp [hp]
    · intro _ _ _ hp _ _ _ _
      simp [hp]
    · intro _ _ _ hp _ _ _ _ _
      intro hx
      rw [lateStage_isPaste] at hx
      simp [hp] at hx
    · intro _ _ _ hp _ _ _ _ _
      intro hx
      rw [lateStage_isPaste] at hx
      simp [hp] at hx
  | fireKitty =>
    simp only [stepNotif]
    unfold fireKittyTimeout
    split
    all_goals simp_all
  | fireDrag =>
    simp only [stepNotif]
    unfold fireDragTimer
    split
    all_goals simp_all
  | fireBackslash =>
    simp only [stepNotif]
    unfold fireBackslashTimeout
    split
    all_goals simp_all

theorem runK_paste_kitty (e : Bool) (ns : List Notif) (s : KState)
    (h : s.isPaste = true → s.kittyBuf = []) :
    (runK e s ns).1.isPaste = true → (runK e s ns).1.kittyBuf = [] := by
  induction ns generalizing s with
  | nil => simpa [runK] using h
  | cons n ns ih =>
    simp only [runK]
    exact ih _ (step_paste_kitty e s n h)

/-- C9 (amended): in every state the dispatcher reaches from the initial
state, the paste accumulation and the escape-sequence buffer are
mutually exclusive: whenever paste mode is active the escape buffer is
empty.  (The drag buffer is not exclusive with them — a quote arriving
while the escape buffer is non-empty does start a drag accumulation, as
the counterexample shows.) -/
theorem c9_paste_kitty_exclusive (e : Bool) (ns : List Notif)
    (h : (runK e initState ns).1.isPaste = true) :
    (runK e initState ns).1.kittyBuf = [] :=
  runK_paste_kitty e ns initState (by intro hi; rfl) h

/-- C9 witness: after a paste-start notification, paste mode is active
and the escape buffer is indeed empty. -/
theorem c9_paste_kitty_exclusive_witness :
    (runK true initState
      [Notif.key (pasteMarkerEvent "paste-start")]).1.kittyBuf = [] :=
  c9_paste_kitty_exclusive true [Notif.key (pasteMarkerEvent "paste-start")]
    (by decide)

/-- C3: when `parseKittyPrefix` succeeds it consumes at most the whole
buffer, fills the returned key's `sequence` with exactly the consumed
prefix, and the match depends only on that prefix: re-parsing the
consumed prefix followed by any continuation returns the same key and
length, so a match never extends into a following sequence. -/
theorem c3_parse_prefix_sound {l : List Char} {k : Key} {n : Nat}
    (h : parseKittyPrefix l = some (k, n)) :
    n ≤ l.length ∧ k.sequence = l.take n ∧
    ∀ l2 : List Char, parseKittyPrefix (l.take n ++ l2) = some (k, n) :=
  parse_prefix_props h

/-- C3 witness: the legacy arrow `ESC [ A` parses to `up` consuming 3,
and re-parsing the consumed prefix with a continuation appended returns
the same parse. -/
theorem c3_parse_prefix_sound_witness :
    parseKittyPrefix (([ESCc, '[', 'A'] : List Char).take 3 ++ [ESCc]) =
      some ({ name := "up", ctrl := false, meta := false, shift := false,
              paste := false, sequence := [ESCc, '[', 'A'],
              kittyProtocol := true }, 3) :=
  (c3_parse_prefix_sound (show parseKittyPrefix [ESCc, '[', 'A'] =
    some ({ name := "up", ctrl := false, meta := false, shift := false,
            paste := false, sequence := [ESCc, '[', 'A'],
            kittyProtocol := true }, 3) by decide)).2.2 [ESCc]

/-- C10: every proper prefix of a successfully parsed match still
satisfies `couldBeKittySequence`, so a recognized sequence delivered one
character at a time is never flushed as a dead-end prefix before it
completes. -/
theorem c10_prefix_alive {l : List Char} {k : Key} {n : Nat}
    (h : parseKittyPrefix l = some (k, n)) :
    ∀ i, i < n → couldBeKittySequence (l.take i) = true := by
  obtain ⟨inf, hs⟩ := parse_shape h
  obtain ⟨c3, r, rfl, hc3⟩ := shape_c3 hs
  intro i hi
  match i with
  | 0 => rfl
  | 1 => rfl
  | 2 => rfl
  | j + 3 =>
    show couldBeKittySequence (ESCc :: '[' :: c3 :: List.take j r) = true
    rcases hc3 with hd | hm
    · simp [couldBeKittySequence, hd]
    · simp [couldBeKittySequence, hm]

/-- C10 witness: the length-2 proper prefix of the parsed `ESC [ A`
still satisfies `couldBeKittySequence`. -/
theorem c10_prefix_alive_witness :
    couldBeKittySequence (([ESCc, '[', 'A'] : List Char).take 2) = true :=
  c10_prefix_alive (show parseKittyPrefix [ESCc, '[', 'A'] =
    some ({ name := "up", ctrl := false, meta := false, shift := false,
            paste := false, sequence := [ESCc, '[', 'A'],
            kittyProtocol := true }, 3) by decide) 2 (by decide)

/-- C5: with the escape buffer empty, a single fragment holding two
complete recognized sequences broadcasts exactly the two parsed events,
in order, and returns the dispatcher to the initial state. -/
theorem c5_batched {s1 s2 : List Char} {k1 k2 : Key}
    (h1 : parseKittyPrefix s1 = some (k1, s1.length))
    (h2 : parseKittyPrefix s2 = some (k2, s2.length)) :
    handleKeypress true initState (rawEvent (s1 ++ s2)) =
      (initState, [Item.emit k1, Item.emit k2]) := by
  obtain ⟨i1, hs1⟩ := parse_shape h1
  obtain ⟨i2, hs2⟩ := parse_shape h2
  have hl1 := shape_le hs1
  have hl2 := shape_le hs2
  have hp1 : parseKittyPrefix (s1 ++ s2) = some (k1, s1.length) := by
    have := (parse_prefix_props h1).2.2 s2
    rwa [List.take_length] at this
  have hloop : kittyLoop (s1 ++ s2) =
      { items := [Item.emit k1, Item.emit k2], rem := [],
        timeoutSet := false, parsedAny := true } := by
    rw [kittyLoop_parse hp1, List.drop_left, kittyLoop_parse h2,
        List.drop_length, kittyLoop_nil]
  refine handleKeypress_elim true initState (rawEvent (s1 ++ s2))
    (fun r => r = (initState, [Item.emit k1, Item.emit k2]))
    ?_ ?_ ?_ ?_ ?_ ?_ ?_ ?_ ?_ ?_
  · intro hf
    rcases hf with hf | hf <;>
    · have := congrArg List.length hf
      simp [rawEvent, FOCUS_IN, FOCUS_OUT] at this
      omega
  · intro _ hn
    simp [rawEvent] at hn
  · intro _ _ hn
    simp [rawEvent] at hn
  · intro _ _ _ hp
    exact absurd hp (by decide)
  · intro _ _ _ _ hq
    rcases hq with hq | hq | hq
    · have := congrArg List.length hq
      simp [rawEvent] at this
      omega
    · have := congrArg List.length hq
      simp [rawEvent] at this
      omega
    · exact absurd hq (by decide)
  · intro _ _ _ _ _ hm
    exfalso
    obtain ⟨c3, r, he1, -⟩ := shape_c3 hs1
    have hm1 := hm.1
    rw [show (rawEvent (s1 ++ s2)).sequence = s1 ++ s2 from rfl, he1,
        List.cons_append, altMap_esc] at hm1
    exact absurd hm1 (by decide)
  · intro _ _ _ _ _ _ hret
    simp [rawEvent] at hret
  · intro _ _ _ _ _ _ _ hbs
    exfalso
    have := congrArg List.length hbs.1
    simp [rawEvent] at this
    omega
  · intro _ _ _ _ _ _ _ _ hw
    exact absurd hw.1 (by decide)
  · intro _ _ _ _ _ _ _ _ _
    refine lateStage_elim true initState (rawEvent (s1 ++ s2))
      (fun r => r = (initState, [Item.emit k1, Item.emit k2]))
      ?_ ?_ ?_ ?_ ?_
    · intro ha
      simp [rawEvent] at ha
    · intro _ hcc
      exfalso
      rcases hcc with ⟨hct, -⟩ | hcs
      · simp [rawEvent] at hct
      · exact absurd hcs (concat_ne_kitty_ctrl_c hs1 hs2 rfl)
    · intro _ _ _ _
      have harg : initState.kittyBuf ++ (rawEvent (s1 ++ s2)).sequence =
          s1 ++ s2 := rfl
      rw [harg, hloop, if_pos (Or.inl rfl)]
      rfl
    · intro _ _ _ hnent
      exfalso
      apply hnent
      refine Or.inr ⟨shape_esc_head hs1 s2, ?_⟩
      show ¬ excludedSeq (s1 ++ s2) = true
      have e1 := complete_marker_free hs1 rfl s2 (Or.inl rfl)
      have e2 := complete_marker_free hs1 rfl s2 (Or.inr rfl)
      have e3 := (shape_focus_free hs1 s2).1
      have e4 := (shape_focus_free hs1 s2).2
      simp [excludedSeq, e1, e2, e3, e4]
    · intro _ _ he
      exact absurd he (by decide)

/-- C5 witness: the fragment `ESC [ A ESC [ Z` broadcasts exactly the
`up` and shift+`tab` parses and leaves the dispatcher in the initial
state. -/
theorem c5_batched_witness :
    handleKeypress true initState
        (rawEvent ([ESCc, '[', 'A'] ++ [ESCc, '[', 'Z'])) =
      (initState,
       [Item.emit { name := "up", ctrl := false, meta := false,
                    shift := false, paste := false,
                    sequence := [ESCc, '[', 'A'], kittyProtocol := true },
        Item.emit { name := "tab", ctrl := false, meta := false,
                    shift := true, paste := false,
                    sequence := [ESCc, '[', 'Z'], kittyProtocol := true }]) :=
  c5_batched (by decide) (by decide)

-- ## Byte conservation of the peel-and-continue loop

theorem itemsBytes_nil : itemsBytes [] = [] := rfl

theorem itemsBytes_cons (i : Item) (its : List Item) :
    itemsBytes (i :: its) = itemBytes i ++ itemsBytes its := by
  simp [itemsBytes]

theorem itemsBytes_append (a b : List Item) :
    itemsBytes (a ++ b) = itemsBytes a ++ itemsBytes b := by
  simp [itemsBytes]

theorem flushKitty_bytes (s : KState) :
    itemsBytes (flushKitty s).2 = s.kittyBuf := by
  unfold flushKitty
  by_cases h : s.kittyBuf = []
  · simp [h, itemsBytes]
  · simp [h, itemsBytes, itemBytes, rawEvent]

theorem kittyLoop_bytes : ∀ (n : Nat) (buf : List Char), buf.length = n →
    itemsBytes (kittyLoop buf).items ++ (kittyLoop buf).rem = buf := by
  intro n
  induction n using Nat.strong_induction_on with
  | _ n ih =>
    intro buf hlen
    by_cases hb : buf = []
    · subst hb
      rw [kittyLoop_nil]
      rfl
    cases hp : parseKittyPrefix buf with
    | some p =>
      obtain ⟨k, m⟩ := p
      have hm := parse_length_pos hp
      have hbl : 0 < buf.length := List.length_pos.mpr hb
      have hseq : k.sequence = buf.take m := (parse_prefix_props hp).2.1
      rw [kittyLoop_parse hp]
      have hrec := ih (buf.drop m).length
        (by simp only [List.length_drop]; omega) (buf.drop m) rfl
      simp only [itemsBytes_cons, itemBytes]
      rw [hseq, List.append_assoc, hrec, List.take_append_drop]
    | none =>
      cases he : nextEscIdx buf with
      | some i =>
        have hi := nextEscIdx_pos he
        rw [kittyLoop_garbage hb hp he]
        have hrec := ih (buf.drop i).length
          (by simp only [List.length_drop]; omega) (buf.drop i) rfl
        simp only [itemsBytes_cons, itemBytes]
        rw [List.append_assoc, hrec, List.take_append_drop]
      | none =>
        by_cases hc : couldBeKittySequence buf = true
        · by_cases ho : MAX_KITTY_SEQUENCE_LENGTH < buf.length
          · rw [kittyLoop_overflow hb hp he hc ho]
            simp [itemsBytes, itemBytes, rawEvent]
          · rw [kittyLoop_timeout hb hp he hc ho]
            rfl
        · rw [kittyLoop_flush hb hp he (by simpa using hc)]
          simp [itemsBytes, itemBytes, rawEvent]

theorem kittyLoop_done : ∀ (n : Nat) (buf : List Char), buf.length = n →
    (kittyLoop buf).parsedAny = false → (kittyLoop buf).rem = [] →
    buf = [] := by
  intro n
  induction n using Nat.strong_induction_on with
  | _ n ih =>
    intro buf hlen hpa hrem
    by_cases hb : buf = []
    · exact hb
    exfalso
    cases hp : parseKittyPrefix buf with
    | some p =>
      obtain ⟨k, m⟩ := p
      rw [kittyLoop_parse hp] at hpa
      simp at hpa
    | none =>
      cases he : nextEscIdx buf with
      | some i =>
        have hi := nextEscIdx_pos he
        rw [kittyLoop_garbage hb hp he] at hpa hrem
        simp only [] at hpa hrem
        have := ih (buf.drop i).length
          (by simp only [List.length_drop]; omega) (buf.drop i) rfl hpa hrem
        have hld := congrArg List.length this
        simp only [List.length_drop, List.length_nil] at hld
        omega
      | none =>
        by_cases hc : couldBeKittySequence buf = true
        · by_cases ho : MAX_KITTY_SEQUENCE_LENGTH < buf.length
          · rw [kittyLoop_overflow hb hp he hc ho] at hpa
            simp at hpa
          · rw [kittyLoop_timeout hb hp he hc ho] at hrem
            exact hb hrem
        · rw [kittyLoop_flush hb hp he (by simpa using hc)] at hpa
          simp at hpa

theorem finalStage_bytes (s : KState) (k : Key) (pre : List Item) :
    itemsBytes (finalStage s k pre).2 = itemsBytes pre ++ k.sequence := by
  unfold finalStage
  simp only []
  rw [itemsBytes_append]
  simp [itemsBytes_cons, itemsBytes_nil, itemBytes, apply_ite Key.sequence]

theorem lateStage_conserve (e : Bool) (s : KState) (k : Key)
    (hinv : Invar s) :
    ((itemsBytes (lateStage e s k).2 : Multiset Char) +
        (stateBytes (lateStage e s k).1 : Multiset Char) =
      (stateBytes s : Multiset Char) + (k.sequence : Multiset Char)) ∧
    Invar (lateStage e s k).1 := by
  refine lateStage_elim e s k (fun r =>
    ((itemsBytes r.2 : Multiset Char) + (stateBytes r.1 : Multiset Char) =
      (stateBytes s : Multiset Char) + (k.sequence : Multiset Char)) ∧
    Invar r.1) ?_ ?_ ?_ ?_ ?_
  · intro _
    refine ⟨?_, hinv⟩
    simp only [itemsBytes_cons, itemsBytes_nil, itemBytes, List.append_nil]
    rw [add_comm]
  · intro _ _
    refine ⟨?_, hinv⟩
    ext a
    simp only [itemsBytes_cons, itemsBytes_nil, itemBytes,
      apply_ite Key.sequence, ite_self, List.append_nil, stateBytes]
    try dsimp only
    simp only [Multiset.count_add, Multiset.coe_count, List.count_append,
      List.count_nil]
    omega
  · intro _ _ _ _
    have hLbytes := kittyLoop_bytes (s.kittyBuf ++ k.sequence).length
      (s.kittyBuf ++ k.sequence) rfl
    by_cases hif : (kittyLoop (s.kittyBuf ++ k.sequence)).parsedAny = true ∨
        (kittyLoop (s.kittyBuf ++ k.sequence)).rem ≠ []
    · rw [if_pos hif]
      refine ⟨?_, hinv⟩
      ext a
      have hma := congrArg (List.count a) hLbytes
      simp only [List.count_append] at hma
      simp only [stateBytes]
      try dsimp only
      simp only [Multiset.count_add, Multiset.coe_count, List.count_append,
      List.count_nil]
      omega
    · rw [if_neg hif]
      push_neg at hif
      obtain ⟨hpa, hrem⟩ := hif
      simp only [ne_eq, Bool.not_eq_true] at hpa
      have hbuf := kittyLoop_done (s.kittyBuf ++ k.sequence).length
        (s.kittyBuf ++ k.sequence) rfl hpa hrem
      obtain ⟨hk0, hq0⟩ := List.append_eq_nil.mp hbuf
      constructor
      · rw [finalStage_bytes, finalStage_isPaste, hbuf, kittyLoop_nil]
        ext a
        simp only [itemsBytes_nil, List.nil_append, stateBytes, hrem]
        try dsimp only
        simp only [hk0, hq0, Multiset.count_add, Multiset.coe_count,
          List.count_append, List.count_nil]
        omega
      · rw [finalStage_isPaste]
        exact hinv
  · intro _ _ _ _
    constructor
    · rw [finalStage_bytes, finalStage_isPaste]
      ext a
      simp only [itemsBytes_nil, List.nil_append, stateBytes]
      try dsimp only
      simp only [Multiset.count_add, Multiset.coe_count, List.count_append,
      List.count_nil]
      omega
    · rw [finalStage_isPaste]
      exact hinv
  · intro _ _ _
    constructor
    · rw [finalStage_bytes, finalStage_isPaste]
      ext a
      simp only [itemsBytes_nil, List.nil_append]
      simp only [Multiset.count_add, Multiset.coe_count, List.count_append,
      List.count_nil]
      omega
    · rw [finalStage_isPaste]
      exact hinv

theorem handleKeypress_conserve (e : Bool) (s : KState) (k : Key)
    (hinv : Invar s) (hret : k.name = "return" → k.sequence = ['\r'])
    (hbb : ¬(k.sequence = [BACKSLASH] ∧ k.name = "" ∧
      s.waitingBackslash = true)) :
    ((itemsBytes (handleKeypress e s k).2 : Multiset Char) +
        (stateBytes (handleKeypress e s k).1 : Multiset Char) =
      (stateBytes s : Multiset Char) + (k.sequence : Multiset Char)) ∧
    Invar (handleKeypress e s k).1 := by
  refine handleKeypress_elim e s k (fun r =>
    ((itemsBytes r.2 : Multiset Char) + (stateBytes r.1 : Multiset Char) =
      (stateBytes s : Multiset Char) + (k.sequence : Multiset Char)) ∧
    Invar r.1) ?_ ?_ ?_ ?_ ?_ ?_ ?_ ?_ ?_ ?_
  · intro _
    constructor
    · ext a
      rw [itemsBytes_append, flushKitty_bytes]
      simp only [itemsBytes_cons, itemsBytes_nil, itemBytes, List.append_nil,
        stateBytes, flushKitty]
      try dsimp only
      simp only [Multiset.count_add, Multiset.coe_count, List.count_append,
        List.count_nil]
      omega
    · simp only [flushKitty]
      exact hinv
  · intro _ _
    constructor
    · ext a
      rw [itemsBytes_append, flushKitty_bytes]
      simp only [itemsBytes_cons, itemsBytes_nil, itemBytes, List.append_nil,
        stateBytes, flushKitty]
      try dsimp only
      simp only [Multiset.count_add, Multiset.coe_count, List.count_append,
        List.count_nil]
      omega
    · simp only [flushKitty]
      exact ⟨hinv.1, fun h => absurd h (by simp), hinv.2.2.1, hinv.2.2.2⟩
  · intro _ _ _
    constructor
    · ext a
      simp only [itemsBytes_cons, itemsBytes_nil, itemBytes, List.append_nil,
        stateBytes, pasteEvent]
      try dsimp only
      simp only [Multiset.count_add, Multiset.coe_count, List.count_append,
        List.count_nil]
      omega
    · exact ⟨hinv.1, fun _ => rfl, hinv.2.2.1, hinv.2.2.2⟩
  · intro _ _ _ hp4
    constructor
    · ext a
      simp only [itemsBytes_nil, stateBytes]
      try dsimp only
      simp only [Multiset.count_add, Multiset.coe_count, List.count_append,
        List.count_nil]
      omega
    · refine ⟨hinv.1, fun h => ?_, hinv.2.2.1, hinv.2.2.2⟩
      rw [hp4] at h
      cases h
  · intro _ _ _ _ _
    constructor
    · ext a
      simp only [itemsBytes_nil, stateBytes]
      try dsimp only
      simp only [Multiset.count_add, Multiset.coe_count, List.count_append,
        List.count_nil]
      omega
    · exact ⟨hinv.1, hinv.2.1, fun h => absurd h (by simp), hinv.2.2.2⟩
  · intro _ _ _ _ _ hm
    constructor
    · ext a
      simp only [itemsBytes_cons, itemsBytes_nil, itemBytes, List.append_nil]
      simp only [Multiset.count_add, Multiset.coe_count, List.count_append,
        List.count_nil]
      omega
    · exact hinv
  · intro _ _ _ _ _ _ h7
    obtain ⟨hr7, hw7⟩ := h7
    have hkseq := hret hr7
    constructor
    · ext a
      simp only [itemsBytes_cons, itemsBytes_nil, itemBytes, List.append_nil,
        stateBytes, hkseq, hw7, eq_self_iff_true, if_true,
        Bool.false_eq_true, if_false]
      try dsimp only
      simp only [Multiset.count_add, Multiset.coe_count, List.count_append,
        List.count_nil]
      omega
    · exact ⟨fun h => absurd h (by simp), hinv.2.1, hinv.2.2.1, rfl⟩
  · intro _ _ _ _ _ _ _ h8
    have hwf : s.waitingBackslash = false := by
      by_cases hw : s.waitingBackslash = true
      · exact absurd ⟨h8.1, h8.2, hw⟩ hbb
      · simpa using hw
    constructor
    · ext a
      simp only [itemsBytes_nil, stateBytes, hwf, eq_self_iff_true, if_true,
        Bool.false_eq_true, if_false]
      try dsimp only
      simp only [Multiset.count_add, Multiset.coe_count, List.count_append,
        List.count_nil]
      omega
    · exact ⟨fun _ => h8.1, hinv.2.1, hinv.2.2.1, rfl⟩
  · intro _ _ _ _ _ _ _ _ h9
    have hinvC : Invar { s with waitingBackslash := false, backslashTimer := false } :=
      ⟨fun h => absurd h (by simp), hinv.2.1, hinv.2.2.1, rfl⟩
    have hlate := lateStage_conserve e
      { s with waitingBackslash := false, backslashTimer := false } k hinvC
    refine ⟨?_, hlate.2⟩
    ext a
    have hma := congrArg (Multiset.count a) hlate.1
    simp only [Multiset.count_add, Multiset.coe_count, stateBytes] at hma
    try dsimp only at hma
    simp only [List.count_append, List.count_nil, Bool.false_eq_true,
      if_false] at hma
    simp only [itemsBytes_cons, itemBytes, rawEvent, stateBytes, h9.1,
      eq_self_iff_true, if_true, hinv.1 h9.1]
    try dsimp only
    simp only [Multiset.count_add, Multiset.coe_count, List.count_append,
      List.count_nil]
    omega
  · intro _ _ _ _ _ _ _ _ _
    exact lateStage_conserve e s k hinv

theorem condEmit_bytes (b : List Char) (ev : Key) (hseq : ev.sequence = b) :
    itemsBytes (if b = [] then [] else [Item.emit ev]) = b := by
  by_cases h : b = []
  · simp [h, itemsBytes_nil]
  · simp [h, itemsBytes_cons, itemsBytes_nil, itemBytes, hseq]

theorem step_conserve (e : Bool) (s : KState) (n : Notif) (hinv : Invar s)
    (hsafe : stepSafe s n) :
    ((itemsBytes (stepNotif e s n).2 : Multiset Char) +
        (stateBytes (stepNotif e s n).1 : Multiset Char) =
      (stateBytes s : Multiset Char) + (notifBytes n : Multiset Char)) ∧
    Invar (stepNotif e s n).1 := by
  cases n with
  | key k =>
    obtain ⟨hret, hbb⟩ := hsafe
    exact handleKeypress_conserve e s k hinv hret hbb
  | fireKitty =>
    simp only [stepNotif, fireKittyTimeout]
    by_cases ht : s.kittyTimeout = true
    · rw [if_pos ht]
      refine ⟨?_, hinv⟩
      ext a
      have hby := condEmit_bytes s.kittyBuf (rawEvent s.kittyBuf) rfl
      have hcount := congrArg (List.count a) hby
      simp only [stateBytes, notifBytes]
      try dsimp only
      simp only [Multiset.count_add, Multiset.coe_count, List.count_append,
        List.count_nil]
      omega
    · rw [if_neg ht]
      refine ⟨?_, hinv⟩
      ext a
      simp only [itemsBytes_nil, notifBytes]
      simp only [Multiset.count_add, Multiset.coe_count, List.count_append,
        List.count_nil]
      omega
  | fireDrag =>
    simp only [stepNotif, fireDragTimer]
    by_cases ht : s.dragTimer = true
    · rw [if_pos ht]
      constructor
      · ext a
        try dsimp only
        rw [condEmit_bytes s.dragBuf { s.dragLastKey with name := "", paste := true, sequence := s.dragBuf } rfl]
        simp only [stateBytes, notifBytes]
        try dsimp only
        simp only [Multiset.count_add, Multiset.coe_count, List.count_append,
          List.count_nil]
        omega
      · exact ⟨hinv.1, hinv.2.1, fun _ => rfl, hinv.2.2.2⟩
    · rw [if_neg ht]
      refine ⟨?_, hinv⟩
      ext a
      simp only [itemsBytes_nil, notifBytes]
      simp only [Multiset.count_add, Multiset.coe_count, List.count_append,
        List.count_nil]
      omega
  | fireBackslash =>
    simp only [stepNotif, fireBackslashTimeout]
    by_cases ht : s.backslashTimer = true
    · rw [if_pos ht]
      have hw : s.waitingBackslash = true := hinv.2.2.2.trans ht
      constructor
      · ext a
        simp only [itemsBytes_cons, itemsBytes_nil, itemBytes,
          List.append_nil, stateBytes, notifBytes, hw, eq_self_iff_true,
          if_true, Bool.false_eq_true, if_false]
        try dsimp only
        simp only [Multiset.count_add, Multiset.coe_count, List.count_append,
          List.count_nil]
        omega
      · exact ⟨fun h => absurd h (by simp), hinv.2.1, hinv.2.2.1, rfl⟩
    · rw [if_neg ht]
      refine ⟨?_, hinv⟩
      ext a
      simp only [itemsBytes_nil, notifBytes]
      simp only [Multiset.count_add, Multiset.coe_count, List.count_append,
        List.count_nil]
      omega

theorem traceBytes_nil : traceBytes [] = [] := rfl

theorem traceBytes_cons (n : Notif) (ns : List Notif) :
    traceBytes (n :: ns) = notifBytes n ++ traceBytes ns := by
  simp [traceBytes]

theorem run_conserve (e : Bool) : ∀ (ns : List Notif) (s : KState),
    Invar s → safeRun e s ns →
    ((itemsBytes (runK e s ns).2 : Multiset Char) +
        (stateBytes (runK e s ns).1 : Multiset Char) =
      (stateBytes s : Multiset Char) + (traceBytes ns : Multiset Char)) ∧
    Invar (runK e s ns).1 := by
  intro ns
  induction ns with
  | nil =>
    intro s hinv _
    refine ⟨?_, hinv⟩
    ext a
    simp only [runK, itemsBytes_nil, traceBytes_nil]
    simp only [Multiset.count_add, Multiset.coe_count, List.count_nil]
    omega
  | cons n ns ih =>
    intro s hinv hsafe
    obtain ⟨hs1, hs2⟩ := hsafe
    have hstep := step_conserve e s n hinv hs1
    have hrec := ih (stepNotif e s n).1 hstep.2 hs2
    refine ⟨?_, hrec.2⟩
    ext a
    have h1 := congrArg (Multiset.count a) hstep.1
    have h2 := congrArg (Multiset.count a) hrec.1
    simp only [Multiset.count_add, Multiset.coe_count] at h1 h2
    simp only [runK, traceBytes_cons]
    try dsimp only
    rw [itemsBytes_append]
    simp only [Multiset.count_add, Multiset.coe_count, List.count_append,
      List.count_nil]
    omega

theorem teardown_bytes (s : KState) (hinv : Invar s) :
    (itemsBytes (teardownK s) : Multiset Char) = ↑(stateBytes s) := by
  have hA : itemsBytes (if s.waitingBackslash = true then
      [Item.disc s.backslashKey.sequence] else []) =
      (if s.waitingBackslash = true then s.backslashKey.sequence else []) := by
    by_cases hw : s.waitingBackslash = true <;>
      simp [hw, itemsBytes_cons, itemsBytes_nil, itemBytes]
  ext a
  have hC : List.count a (itemsBytes (if s.isPaste = true then
      [Item.emit (pasteEvent s.pasteBuffer)] else [])) =
      List.count a s.pasteBuffer := by
    by_cases hp : s.isPaste = true
    · simp [hp, itemsBytes_cons, itemsBytes_nil, itemBytes, pasteEvent]
    · have hpb := hinv.2.1 (by simpa using hp)
      simp [hp, itemsBytes_nil, hpb]
  have hD : List.count a (itemsBytes (if s.dragging = true ∧ s.dragBuf ≠ []
      then [Item.emit (pasteEvent s.dragBuf)] else [])) =
      List.count a s.dragBuf := by
    by_cases hd : s.dragging = true ∧ s.dragBuf ≠ []
    · simp [hd, itemsBytes_cons, itemsBytes_nil, itemBytes, pasteEvent]
    · push_neg at hd
      by_cases hdr : s.dragging = true
      · have hdb := hd hdr
        simp [hdb, itemsBytes_nil]
      · have hdb := hinv.2.2.1 (by simpa using hdr)
        simp [hdr, hdb, itemsBytes_nil]
  simp only [teardownK, itemsBytes_append]
  rw [condEmit_bytes s.kittyBuf (rawEvent s.kittyBuf) rfl, hA]
  simp only [stateBytes, Multiset.coe_count, List.count_append]
  rw [hC, hD]
  omega

/-- C1 (amended): over any finite trace of key notifications and timer
firings satisfying the side conditions (`return` keys carry the plain CR
sequence, and no lone backslash arrives while a backslash wait window is
already pending), followed by teardown, the multiset of characters in
the broadcast events plus the characters discarded at the explicitly
coded discard points (consumed framing markers, garbage dropped before a
later `ESC`, the escape buffer cleared on Ctrl+C, a backslash fused into
a synthetic shift+return or cancelled at teardown) equals the multiset
of input characters: no byte is duplicated or lost by the accounting,
although the broadcasts alone do not reconstruct the input. -/
theorem c1_conservation (e : Bool) (ns : List Notif)
    (hsafe : safeRun e initState ns) :
    (itemsBytes ((runK e initState ns).2 ++
        teardownK (runK e initState ns).1) : Multiset Char) =
      (traceBytes ns : Multiset Char) := by
  have hrun := run_conserve e ns initState (by decide) hsafe
  have htd := teardown_bytes (runK e initState ns).1 hrun.2
  ext a
  have h1 := congrArg (Multiset.count a) hrun.1
  have h2 := congrArg (Multiset.count a) htd
  simp only [Multiset.count_add, Multiset.coe_count] at h1 h2
  rw [itemsBytes_append]
  simp only [Multiset.coe_count, List.count_append]
  have h0 : List.count a (stateBytes initState) = 0 := by
    simp [stateBytes, initState]
  omega

/-- C1 witness: on the counterexample chunk the accounting balances —
the dropped `ESC [ x` appears as an explicit discard, the parsed arrow
as a broadcast. -/
theorem c1_conservation_witness :
    (itemsBytes ((runK true initState [Notif.key (rawEvent c1cexSeq)]).2 ++
        teardownK (runK true initState
          [Notif.key (rawEvent c1cexSeq)]).1) : Multiset Char) =
      (traceBytes [Notif.key (rawEvent c1cexSeq)] : Multiset Char) :=
  c1_conservation true [Notif.key (rawEvent c1cexSeq)] (by decide)

end Keypress
